import Mathlib

/-!
# Game of Life (`main.go`): embedding and verification

The program keeps two matrices of cells, `board` and `next`.  One iteration of
the outer `for` loop of `main` visits every cell of `board`, counts its alive
neighbours through a nested `switch` on the position, applies the rules of
life, prints a glyph for the cell, stores the future cell in `next`, and then
`regenerate` copies `next` over `board`.

Slices are lists; every slice access performs the bounds check of the Go
runtime and yields `Fault.indexOutOfRange` where Go panics.  Indices are
integers (`int`), so that `x-1` below zero is a fault and not a truncation.
The calls `clear()` and `tick()` (terminal reset, one second sleep) touch
nothing of the two matrices and are left out.
-/

namespace LifeHappens

/-! ## Data model -/

/-- Go `type state int`. -/
abbrev State := Int

/-- Constant `dead state = 0`. -/
def dead : State := 0

/-- Constant `alive state = 1`. -/
def alive : State := 1

/-- Constant `displayAlive`, the glyph printed for an alive cell. -/
def displayAlive : String := " "

/-- Constant `displayDead`, the glyph printed for a dead cell (the bytes of the source literal). -/
def displayDead : String := "â–ˆ"

/-- A Go `[][]state`. -/
abbrev Matrix := List (List State)

/-- The run-time panic of an out-of-range slice index. -/
inductive Fault where
  | indexOutOfRange
deriving DecidableEq, Repr

/-- The package variable `seed` (Oscillator - Beacon). -/
def seed : Matrix :=
  [ [0, 0, 0, 0, 0, 0, 0, 0],
    [0, 0, 0, 0, 0, 0, 0, 0],
    [0, 0, 0, 0, 0, 0, 0, 0],
    [0, 0, 1, 1, 0, 0, 0, 0],
    [0, 0, 1, 1, 0, 0, 0, 0],
    [0, 0, 0, 0, 1, 1, 0, 0],
    [0, 0, 0, 0, 1, 1, 0, 0],
    [0, 0, 0, 0, 0, 0, 0, 0],
    [0, 0, 0, 0, 0, 0, 0, 0],
    [0, 0, 0, 0, 0, 0, 0, 0] ]

/-- The simulation state: the two lengths fixed at start-up, the two matrices, and the text printed so far. -/
structure Sim where
  genLength : Int
  rowLength : Int
  board : Matrix
  next : Matrix
  out : List String
deriving DecidableEq, Repr

/-! ## Slice access -/

/-- Slice read `l[i]` with the bounds check of the Go runtime. -/
def index {α : Type} (l : List α) (i : Int) : Except Fault α :=
  if i < 0 then Except.error Fault.indexOutOfRange
  else
    match l[i.toNat]? with
    | some v => Except.ok v
    | none => Except.error Fault.indexOutOfRange

/-- Read `m[y][x]`. -/
def cellAt (m : Matrix) (y x : Int) : Except Fault State := do
  let row ← index m y
  index row x

/-- Write `m[y][x] = v`: both indices are checked, then the cell is replaced. -/
def store (m : Matrix) (y x : Int) (v : State) : Except Fault Matrix := do
  let row ← index m y
  let _ ← index row x
  pure (m.set y.toNat (row.set x.toNat v))

/-! ## The functions of `main.go` -/

/-- Function `countAliveNeighbours(n ...state) int`. -/
def countAliveNeighbours (n : List State) : Int :=
  n.foldl (fun c v => if v = alive then c + 1 else c) 0

/-- The nested `switch y { ... switch x { ... } }` of `main` that counts the alive neighbours of `(y, x)`. -/
def neighbours (genLength rowLength : Int) (board : Matrix) (y x : Int) : Except Fault Int :=
  if y = 0 then
    if x = 0 then do
      pure (countAliveNeighbours
        [← cellAt board y (x+1), ← cellAt board (y+1) x, ← cellAt board (y+1) (x+1)])
    else if x = rowLength - 1 then do
      pure (countAliveNeighbours
        [← cellAt board y (x-1), ← cellAt board (y+1) x, ← cellAt board (y+1) (x-1)])
    else do
      pure (countAliveNeighbours
        [← cellAt board y (x-1), ← cellAt board (y+1) (x-1), ← cellAt board (y+1) x,
         ← cellAt board (y+1) (x+1), ← cellAt board y (x+1)])
  else if y = genLength - 1 then
    if x = 0 then do
      pure (countAliveNeighbours
        [← cellAt board (y-1) x, ← cellAt board (y-1) (x+1), ← cellAt board y (x+1)])
    else if x = rowLength - 1 then do
      pure (countAliveNeighbours
        [← cellAt board (y-1) x, ← cellAt board (y-1) (x-1), ← cellAt board y (x-1)])
    else do
      pure (countAliveNeighbours
        [← cellAt board y (x-1), ← cellAt board (y-1) (x-1), ← cellAt board (y-1) x,
         ← cellAt board (y-1) (x+1), ← cellAt board y (x+1)])
  else
    if x = 0 then do
      pure (countAliveNeighbours
        [← cellAt board (y-1) x, ← cellAt board (y-1) (x+1), ← cellAt board y (x+1),
         ← cellAt board (y+1) (x+1), ← cellAt board (y+1) x])
    else if x = rowLength - 1 then do
      pure (countAliveNeighbours
        [← cellAt board (y-1) x, ← cellAt board (y-1) (x-1), ← cellAt board y (x-1),
         ← cellAt board (y+1) (x-1), ← cellAt board (y+1) x])
    else do
      pure (countAliveNeighbours
        [← cellAt board (y-1) (x-1), ← cellAt board (y-1) x, ← cellAt board (y-1) (x+1),
         ← cellAt board y (x+1), ← cellAt board (y+1) (x+1), ← cellAt board (y+1) x,
         ← cellAt board (y+1) (x-1), ← cellAt board y (x-1)])

/-- The `switch cell { ... }` of `main` (rules of life): the future cell and the glyphs printed.
A cell that is neither `alive` nor `dead` matches no case: `future` keeps its zero value and nothing is printed. -/
def rulesOfLife (cell : State) (n : Int) : State × List String :=
  if cell = alive then
    ((if n = 2 ∨ n = 3 then alive else dead), [displayAlive])
  else if cell = dead then
    ((if n = 3 then alive else dead), [displayDead])
  else
    (0, [])

/-- Body of the inner loop of `main` for the cell `cell` found at `(y, x)`. -/
def visitCell (genLength rowLength : Int) (board : Matrix) (y x : Int) (cell : State)
    (next : Matrix) (out : List String) : Except Fault (Matrix × List String) := do
  let n ← neighbours genLength rowLength board y x
  let r := rulesOfLife cell n
  let next1 ← store next y x r.1
  let out1 := out ++ r.2
  pure (next1, if x = rowLength - 1 then out1 ++ ["\n"] else out1)

/-- Loop `for x, cell := range row` of `main`, from column `x` on. -/
def visitRow (genLength rowLength : Int) (board : Matrix) (y : Int) :
    List State → Nat → Matrix → List String → Except Fault (Matrix × List String)
  | [], _, next, out => pure (next, out)
  | cell :: rest, x, next, out => do
    let r ← visitCell genLength rowLength board y x cell next out
    visitRow genLength rowLength board y rest (x + 1) r.1 r.2

/-- Loop `for y, row := range board` of `main`, from row `y` on. -/
def visitRows (genLength rowLength : Int) (board : Matrix) :
    List (List State) → Nat → Matrix → List String → Except Fault (Matrix × List String)
  | [], _, next, out => pure (next, out)
  | row :: rest, y, next, out => do
    let r ← visitRow genLength rowLength board y row 0 next out
    visitRows genLength rowLength board rest (y + 1) r.1 r.2

/-- Inner loop of `regenerate`: `board[y][x] = cell` for the cells of one row of `next`. -/
def regenerateRow (y : Int) : List State → Nat → Matrix → Except Fault Matrix
  | [], _, board => pure board
  | cell :: rest, x, board => do
    let board1 ← store board y x cell
    regenerateRow y rest (x + 1) board1

/-- Outer loop of `regenerate`, from row `y` of `next` on. -/
def regenerateRows : List (List State) → Nat → Matrix → Except Fault Matrix
  | [], _, board => pure board
  | row :: rest, y, board => do
    let board1 ← regenerateRow y row 0 board
    regenerateRows rest (y + 1) board1

/-- Function `regenerate(next, board)`. -/
def regenerate (next board : Matrix) : Except Fault Matrix :=
  regenerateRows next 0 board

/-- One iteration of the outer `for` loop of `main`: visit every cell, then regenerate. -/
def advance (s : Sim) : Except Fault Sim := do
  let r ← visitRows s.genLength s.rowLength s.board s.board 0 s.next s.out
  let board1 ← regenerate r.1 s.board
  pure { s with board := board1, next := r.1, out := r.2 }

/-- The statements of `main` before the loop: the two lengths, `board := seed`, and the allocation of `next`. -/
def setup (sd : Matrix) : Except Fault Sim := do
  let row0 ← index sd 0
  pure { genLength := sd.length, rowLength := row0.length, board := sd,
         next := List.replicate sd.length (List.replicate row0.length 0), out := [] }

/-- The first `k` iterations of the outer loop. -/
def advances : Nat → Sim → Except Fault Sim
  | 0, s => pure s
  | k + 1, s => do
    let s1 ← advance s
    advances k s1

/-- The program up to the end of generation `k`, started on the seed `sd`. -/
def run (sd : Matrix) (k : Nat) : Except Fault Sim := do
  let s ← setup sd
  advances k s

/-! ## Specification-side definitions

These describe what the loops are meant to compute; they are compared with the
functions above in the theorems below. -/

/-- A matrix of `h` rows, every row of `w` cells. -/
def Rect (h w : Nat) (m : Matrix) : Prop :=
  m.length = h ∧ ∀ r ∈ m, r.length = w

instance (h w : Nat) (m : Matrix) : Decidable (Rect h w m) := by
  unfold Rect
  infer_instance

/-- The board surrounded by a border of dead cells: the cell at `(y, x)`, dead outside the matrix. -/
def bordered (m : Matrix) (y x : Int) : State :=
  if 0 ≤ y ∧ 0 ≤ x then ((m[y.toNat]?.getD [])[x.toNat]?).getD dead else dead

/-- The matrix with the cell `(y, x)` replaced by `v`. -/
def put (m : Matrix) (y x : Int) (v : State) : Matrix :=
  m.set y.toNat ((m[y.toNat]?.getD []).set x.toNat v)

/-- The eight neighbour offsets `(dy, dx)`, `dy, dx ∈ {-1, 0, 1}`, `(dy, dx) ≠ (0, 0)`. -/
def offsets : List (Int × Int) :=
  ([(-1 : Int), 0, 1].product [(-1 : Int), 0, 1]).filter (fun d => d ≠ (0, 0))

/-- Follows the spec's words (edge policy of `count_alive_neighbors`): the number of positions
`(y+dy, x+dx)` that lie inside `[0, height) × [0, width)` and hold an alive cell. -/
def clippedCount (m : Matrix) (height width : Nat) (y x : Int) : Int :=
  ((offsets.filter (fun d =>
      decide (0 ≤ y + d.1 ∧ y + d.1 < height ∧ 0 ≤ x + d.2 ∧ x + d.2 < width) &&
      decide (bordered m (y + d.1) (x + d.2) = alive))).length : Int)

/-- Follows the spec's words: the full 8-neighbour count on the board surrounded by dead cells. -/
def fullCount (m : Matrix) (y x : Int) : Int :=
  ((offsets.filter (fun d => decide (bordered m (y + d.1) (x + d.2) = alive))).length : Int)

/-- One for an alive cell, zero for any other. -/
def ind (v : State) : Int := if v = alive then 1 else 0

/-- The glyphs printed when a cell is visited. -/
def glyph (c : State) : List String :=
  if c = alive then [displayAlive] else if c = dead then [displayDead] else []

/-- The line break that ends a non-empty run of cells. -/
def lineBreak (cs : List State) : List String :=
  if cs = [] then [] else ["\n"]

/-- The rule of life applied to the cell `(y, x)` of `m` and its clipped neighbour count. -/
def stepCell (m : Matrix) (h w : Nat) (y x : Int) : State :=
  (rulesOfLife (bordered m y x) (clippedCount m h w y x)).1

/-- The text of a matrix: one glyph per cell, every row followed by a line break. -/
def render (m : Matrix) : List String :=
  m.flatMap (fun r => r.flatMap glyph ++ ["\n"])

/-- The simultaneous update: every cell of the `h × w` board replaced by `stepCell` of the old board. -/
def nextGen (h w : Nat) (m : Matrix) : Matrix :=
  (List.range h).map (fun (y : Nat) =>
    (List.range w).map (fun (x : Nat) => stepCell m h w (y : Int) (x : Int)))

/-- The all-alive or all-dead matrix of a given shape. -/
def uniform (h w : Nat) (v : State) : Matrix :=
  List.replicate h (List.replicate w v)

/-- The left-right mirror of a matrix: every row reversed. -/
def mirrorRows (m : Matrix) : Matrix :=
  m.map List.reverse

/-- The top-bottom mirror of a matrix: the rows in reverse order. -/
def flipRows (m : Matrix) : Matrix :=
  m.reverse

/-- The transpose of a matrix: row `x` of the result is column `x` of `m`; the number of
columns is read off the first row. -/
def transposeRows (m : Matrix) : Matrix :=
  (List.range (m.headD []).length).map (fun (x : Nat) => m.map (fun r => r.getD x dead))

/-! ## Slice access on rectangular matrices -/

/-- The eight offsets, listed. -/
theorem offsets_eq : offsets = [(-1,-1),(-1,0),(-1,1),(0,-1),(0,1),(1,-1),(1,0),(1,1)] := by
  decide

/-- Every row index below `h` of a rectangular matrix holds a row of `w` cells. -/
theorem rect_row {h w : Nat} {m : Matrix} (hm : Rect h w m) {y : Nat} (hy : y < h) :
    ∃ r, m[y]? = some r ∧ r.length = w := by
  obtain ⟨h1, h2⟩ := hm
  have hy2 : y < m.length := by omega
  refine ⟨m[y], List.getElem?_eq_getElem hy2, h2 _ (List.getElem_mem hy2)⟩

/-- A slice read at a non-negative index that holds a value returns it. -/
theorem index_ok {α : Type} (l : List α) (i : Int) (v : α) (h0 : 0 ≤ i)
    (hv : l[i.toNat]? = some v) : index l i = Except.ok v := by
  unfold index
  rw [if_neg (by omega), hv]

/-- Reading an in-bounds cell of a rectangular matrix never faults. -/
theorem cellAt_ok {h w : Nat} {m : Matrix} (hm : Rect h w m) (y x : Int)
    (hy0 : 0 ≤ y) (hy : y < h) (hx0 : 0 ≤ x) (hx : x < w) :
    cellAt m y x = Except.ok (bordered m y x) := by
  obtain ⟨r, hr, hrl⟩ := rect_row hm (y := y.toNat) (by omega)
  have hxl : x.toNat < r.length := by omega
  unfold cellAt
  rw [index_ok m y r hy0 hr]
  show index r x = _
  rw [index_ok r x r[x.toNat] hx0 (List.getElem?_eq_getElem hxl)]
  simp [bordered, hy0, hx0, hr, List.getElem?_eq_getElem hxl]

/-- Writing an in-bounds cell of a rectangular matrix never faults. -/
theorem store_ok {h w : Nat} {m : Matrix} (hm : Rect h w m) (y x : Int) (v : State)
    (hy0 : 0 ≤ y) (hy : y < h) (hx0 : 0 ≤ x) (hx : x < w) :
    store m y x v = Except.ok (put m y x v) := by
  obtain ⟨r, hr, hrl⟩ := rect_row hm (y := y.toNat) (by omega)
  have hxl : x.toNat < r.length := by omega
  unfold store
  rw [index_ok m y r hy0 hr]
  show (do let _ ← index r x; pure (m.set y.toNat (r.set x.toNat v))) = _
  rw [index_ok r x r[x.toNat] hx0 (List.getElem?_eq_getElem hxl)]
  simp [put, hr]

/-- Replacing a cell keeps the shape. -/
theorem rect_put {h w : Nat} {m : Matrix} (hm : Rect h w m) (y x : Int) (v : State) :
    Rect h w (put m y x v) := by
  obtain ⟨h1, h2⟩ := hm
  refine ⟨by simp [put, h1], ?_⟩
  intro r hr
  unfold put at hr
  rcases List.mem_or_eq_of_mem_set hr with h3 | h3
  · exact h2 r h3
  · subst h3
    rw [List.length_set]
    cases hq : m[y.toNat]? with
    | none =>
      rw [hq] at hr
      rw [List.set_eq_of_length_le (List.getElem?_eq_none_iff.mp hq)] at hr
      simpa using h2 _ hr
    | some q =>
      obtain ⟨hlt, hget⟩ := List.getElem?_eq_some_iff.mp hq
      simpa [← hget] using h2 _ (List.getElem_mem hlt)

/-- Replacing a cell changes that cell and no other. -/
theorem bordered_put {h w : Nat} {m : Matrix} (hm : Rect h w m) (y x : Int) (v : State)
    (hy0 : 0 ≤ y) (hy : y < h) (hx0 : 0 ≤ x) (hx : x < w) (y1 x1 : Int) :
    bordered (put m y x v) y1 x1 = if y1 = y ∧ x1 = x then v else bordered m y1 x1 := by
  obtain ⟨r, hr, hrl⟩ := rect_row hm (y := y.toNat) (by omega)
  have hxl : x.toNat < r.length := by omega
  have hyl : y.toNat < m.length := by have := hm.1; omega
  unfold bordered put
  by_cases hb : 0 ≤ y1 ∧ 0 ≤ x1
  · rw [if_pos hb, if_pos hb, hr]
    by_cases e1 : y1 = y
    · subst e1
      simp only [Option.getD_some, List.getElem?_set_self hyl, true_and]
      by_cases e2 : x1 = x
      · subst e2
        simp [List.getElem?_set_self hxl]
      · have : x.toNat ≠ x1.toNat := by omega
        simp [List.getElem?_set_ne this, e2, hr]
    · have : y.toNat ≠ y1.toNat := by omega
      simp [List.getElem?_set_ne this, e1]
  · rw [if_neg hb, if_neg hb]
    have : ¬ (y1 = y ∧ x1 = x) := by 
      rintro ⟨rfl, rfl⟩ 
      exact hb ⟨hy0, hx0⟩
    rw [if_neg this]

/-- The clipped count as a sum of indicators over the eight offsets. -/
theorem clippedCount_eq (m : Matrix) (height width : Nat) (y x : Int) :
    clippedCount m height width y x =
      (offsets.map (fun d =>
        if (0 ≤ y + d.1 ∧ y + d.1 < height ∧ 0 ≤ x + d.2 ∧ x + d.2 < width)
        then ind (bordered m (y + d.1) (x + d.2)) else 0)).sum := by
  unfold clippedCount
  induction offsets with
  | nil => simp
  | cons d t ih =>
    simp only [List.filter_cons, List.map_cons, List.sum_cons, ← ih]
    unfold ind
    split_ifs <;> simp_all
    all_goals omega

/-- The loop of `countAliveNeighbours` sums the indicators of its arguments. -/
theorem countAliveNeighbours_eq (n : List State) :
    countAliveNeighbours n = (n.map ind).sum := by
  unfold countAliveNeighbours
  have key : ∀ (l : List State) (c : Int),
      l.foldl (fun c v => if v = alive then c + 1 else c) c = c + (l.map ind).sum := by
    intro l
    induction l with
    | nil => intro c; simp
    | cons a t ih =>
      intro c
      simp only [List.foldl_cons, List.map_cons, List.sum_cons, ih, ind]
      split_ifs <;> omega
  simpa using key n 0

/-- The nested switch computes the clipped count on boards of at least 2 by 2. -/
theorem neighbours_eq {h w : Nat} {m : Matrix} (hm : Rect h w m) (h2 : 2 ≤ h) (w2 : 2 ≤ w)
    (y x : Int) (hy0 : 0 ≤ y) (hy : y < h) (hx0 : 0 ≤ x) (hx : x < w) :
    neighbours h w m y x = Except.ok (clippedCount m h w y x) := by
  rw [clippedCount_eq, offsets_eq]
  unfold neighbours
  split_ifs with a b c d e f g
  all_goals
    simp (disch := omega) only [cellAt_ok hm]
    simp (disch := omega) only [bind, Except.bind, pure, Except.pure, countAliveNeighbours_eq,
      List.map, List.sum_cons, List.sum_nil, if_pos, if_neg, add_zero, ← sub_eq_add_neg]
    congr 1
    ring

/-- The glyph printed depends on the cell only. -/
theorem rulesOfLife_snd (c : State) (n : Int) : (rulesOfLife c n).2 = glyph c := by
  unfold rulesOfLife glyph
  split_ifs <;> rfl

/-- Visiting an in-bounds cell stores its future in `next` and prints its glyph. -/
theorem visitCell_ok {h w : Nat} {board next : Matrix} (hb : Rect h w board)
    (hn : Rect h w next) (h2 : 2 ≤ h) (w2 : 2 ≤ w)
    (y x : Int) (hy0 : 0 ≤ y) (hy : y < h) (hx0 : 0 ≤ x) (hx : x < w) (out : List String) :
    visitCell h w board y x (bordered board y x) next out =
      Except.ok (put next y x (stepCell board h w y x),
        if x = (w : Int) - 1 then out ++ glyph (bordered board y x) ++ ["\n"]
        else out ++ glyph (bordered board y x)) := by
  unfold visitCell
  rw [neighbours_eq hb h2 w2 y x hy0 hy hx0 hx]
  simp only [bind, Except.bind, rulesOfLife_snd]
  rw [store_ok hn y x _ hy0 hy hx0 hx]
  rfl

/-- The head of a suffix is the element at the position where the suffix starts. -/
theorem drop_cons_inv {α : Type} {l : List α} {n : Nat} {a : α} {t : List α}
    (hd : l.drop n = a :: t) : l[n]? = some a ∧ l.drop (n + 1) = t ∧ n < l.length := by
  have hlt : n < l.length := by
    by_contra hge
    rw [List.drop_of_length_le (by omega)] at hd
    cases hd
  rw [List.drop_eq_getElem_cons hlt] at hd
  injection hd with h1 h2
  exact ⟨by rw [List.getElem?_eq_getElem hlt, h1], h2, hlt⟩

/-- An element found at an index is a member. -/
theorem mem_of_getElem?_some {α : Type} {l : List α} {n : Nat} {a : α}
    (hc : l[n]? = some a) : a ∈ l := by
  obtain ⟨hlt, hget⟩ := List.getElem?_eq_some_iff.mp hc
  rw [← hget]
  exact List.getElem_mem hlt

/-- The inner loop of `main` fills the rest of row `y` of `next` and prints the rest of the row. -/
theorem visitRow_ok {h w : Nat} {board : Matrix} (hb : Rect h w board)
    (h2 : 2 ≤ h) (w2 : 2 ≤ w) (y : Nat) (hy : y < h) :
    ∀ (cs : List State) (x0 : Nat) (next : Matrix) (out : List String), Rect h w next →
      (board[y]?.getD []).drop x0 = cs →
      ∃ next1, visitRow h w board y cs x0 next out
          = Except.ok (next1, out ++ cs.flatMap glyph ++ lineBreak cs) ∧
        Rect h w next1 ∧
        ∀ y1 x1 : Int, bordered next1 y1 x1 =
          if y1 = y ∧ (x0 : Int) ≤ x1 ∧ x1 < w then stepCell board h w y1 x1
          else bordered next y1 x1 := by
  obtain ⟨r, hr, hrl⟩ := rect_row hb hy
  intro cs
  induction cs with
  | nil =>
    intro x0 next out hn hd
    refine ⟨next, by simp [visitRow, lineBreak]; rfl, hn, ?_⟩
    intro y1 x1
    have hx0 : w ≤ x0 := by
      rw [hr, Option.getD_some] at hd
      have := congrArg List.length hd
      simp at this
      omega
    rw [if_neg (by omega)]
  | cons c rest ih =>
    intro x0 next out hn hd
    rw [hr, Option.getD_some] at hd
    obtain ⟨hc, hrest, hlt⟩ := drop_cons_inv hd
    have hx : x0 < w := by omega
    have hcell : bordered board y x0 = c := by
      simp [bordered, hr, hc]
    have hlen : x0 + 1 + rest.length = w := by
      have := congrArg List.length hrest
      simp at this
      omega
    have hstep := visitCell_ok hb hn h2 w2 y x0 (by omega) (by omega) (by omega) (by omega) out
    rw [hcell] at hstep
    obtain ⟨next1, e1, r1, p1⟩ := ih (x0 + 1) (put next y x0 (stepCell board h w y x0))
      (if (x0 : Int) = (w : Int) - 1 then out ++ glyph c ++ ["\n"] else out ++ glyph c)
      (rect_put hn _ _ _) (by rw [hr, Option.getD_some]; exact hrest)
    refine ⟨next1, ?_, r1, ?_⟩
    · unfold visitRow
      simp only [bind, Except.bind, hstep]
      rw [e1]
      congr 2
      by_cases hl : (x0 : Int) = (w : Int) - 1
      · have : rest = [] := List.eq_nil_of_length_eq_zero (by omega)
        subst this
        simp [hl, lineBreak]
      · have : rest ≠ [] := by
          intro hnil
          have hz : rest.length = 0 := by rw [hnil]; rfl
          omega
        simp [hl, lineBreak, this]
    · intro y1 x1
      rw [p1 y1 x1, bordered_put hn y x0 _ (by omega) (by omega) (by omega) (by omega)]
      by_cases e : y1 = y
      · by_cases e2 : x1 = x0
        · subst e e2
          have hxw : (x0 : Int) < w := by omega
          simp [hxw]
        · have q1 : ((x0 : Int) + 1 ≤ x1 ∧ x1 < w) ↔ ((x0 : Int) ≤ x1 ∧ x1 < w) := by omega
          simp [e, e2, q1]
      · simp [e]

/-- The outer loop of `main` fills the remaining rows of `next` and prints them. -/
theorem visitRows_ok {h w : Nat} {board : Matrix} (hb : Rect h w board)
    (h2 : 2 ≤ h) (w2 : 2 ≤ w) :
    ∀ (rs : List (List State)) (y0 : Nat) (next : Matrix) (out : List String), Rect h w next →
      board.drop y0 = rs →
      ∃ next1, visitRows h w board rs y0 next out = Except.ok (next1, out ++ render rs) ∧
        Rect h w next1 ∧
        ∀ y1 x1 : Int, bordered next1 y1 x1 =
          if ((y0 : Int) ≤ y1 ∧ y1 < h) ∧ (0 ≤ x1 ∧ x1 < w) then stepCell board h w y1 x1
          else bordered next y1 x1 := by
  intro rs
  induction rs with
  | nil =>
    intro y0 next out hn hd
    refine ⟨next, by simp [visitRows, render]; rfl, hn, ?_⟩
    intro y1 x1
    have hy0 : h ≤ y0 := by
      have := congrArg List.length hd
      simp [hb.1] at this
      omega
    rw [if_neg (by omega)]
  | cons r rest ih =>
    intro y0 next out hn hd
    obtain ⟨hc, hrest, hlt⟩ := drop_cons_inv hd
    have hy : y0 < h := by rw [← hb.1]; exact hlt
    have hrl : r.length = w := hb.2 r (mem_of_getElem?_some hc)
    obtain ⟨next1, e1, r1, p1⟩ := visitRow_ok hb h2 w2 y0 hy r 0 next out hn (by simp [hc])
    obtain ⟨next2, e2, r2, p2⟩ := ih (y0 + 1) next1 (out ++ r.flatMap glyph ++ lineBreak r)
      r1 hrest
    refine ⟨next2, ?_, r2, ?_⟩
    · unfold visitRows
      simp only [bind, Except.bind, e1]
      rw [e2]
      have hne : r ≠ [] := by
        intro hnil
        have hz : r.length = 0 := by rw [hnil]; rfl
        omega
      simp [render, lineBreak, hne]
    · intro y1 x1
      rw [p2 y1 x1, p1 y1 x1]
      by_cases e : y1 = y0
      · subst e
        have hyh : (y0 : Int) < h := by omega
        simp [hyh]
      · have q1 : ((y0 : Int) + 1 ≤ y1 ∧ y1 < h) ↔ ((y0 : Int) ≤ y1 ∧ y1 < h) := by omega
        simp [e, q1]

/-- The inner loop of `regenerate` copies the rest of row `y` of `next` into `board`. -/
theorem regenerateRow_ok {h w : Nat} (next : Matrix) (y : Nat) (hy : y < h) :
    ∀ (cs : List State) (x0 : Nat) (board : Matrix), Rect h w board →
      (next[y]?.getD []).drop x0 = cs → x0 + cs.length = w →
      ∃ board1, regenerateRow y cs x0 board = Except.ok board1 ∧ Rect h w board1 ∧
        ∀ y1 x1 : Int, bordered board1 y1 x1 =
          if y1 = y ∧ (x0 : Int) ≤ x1 ∧ x1 < w then bordered next y1 x1
          else bordered board y1 x1 := by
  intro cs
  induction cs with
  | nil =>
    intro x0 board hb hd hl
    refine ⟨board, rfl, hb, ?_⟩
    intro y1 x1
    simp at hl
    rw [if_neg (by omega)]
  | cons c rest ih =>
    intro x0 board hb hd hl
    obtain ⟨hc, hrest, hlt⟩ := drop_cons_inv hd
    simp at hl
    have hcell : bordered next y x0 = c := by
      simp [bordered, hc]
    have hstore := store_ok hb y x0 c (by omega) (by omega) (by omega) (by omega)
    obtain ⟨board1, e1, r1, p1⟩ := ih (x0 + 1) (put board y x0 c) (rect_put hb _ _ _) hrest
      (by omega)
    refine ⟨board1, ?_, r1, ?_⟩
    · unfold regenerateRow
      simp only [bind, Except.bind, hstore]
      exact e1
    · intro y1 x1
      rw [p1 y1 x1, bordered_put hb y x0 _ (by omega) (by omega) (by omega) (by omega)]
      by_cases e : y1 = y
      · by_cases e2 : x1 = x0
        · subst e e2
          have hxw : (x0 : Int) < w := by omega
          simp [hxw, hcell]
        · have q1 : ((x0 : Int) + 1 ≤ x1 ∧ x1 < w) ↔ ((x0 : Int) ≤ x1 ∧ x1 < w) := by omega
          simp [e, e2, q1]
      · simp [e]

/-- The outer loop of `regenerate` copies the remaining rows of `next` into `board`. -/
theorem regenerateRows_ok {h w : Nat} {next : Matrix} (hn : Rect h w next) :
    ∀ (rs : List (List State)) (y0 : Nat) (board : Matrix), Rect h w board →
      next.drop y0 = rs →
      ∃ board1, regenerateRows rs y0 board = Except.ok board1 ∧ Rect h w board1 ∧
        ∀ y1 x1 : Int, bordered board1 y1 x1 =
          if ((y0 : Int) ≤ y1 ∧ y1 < h) ∧ (0 ≤ x1 ∧ x1 < w) then bordered next y1 x1
          else bordered board y1 x1 := by
  intro rs
  induction rs with
  | nil =>
    intro y0 board hb hd
    refine ⟨board, rfl, hb, ?_⟩
    intro y1 x1
    have hy0 : h ≤ y0 := by
      have := congrArg List.length hd
      simp [hn.1] at this
      omega
    rw [if_neg (by omega)]
  | cons r rest ih =>
    intro y0 board hb hd
    obtain ⟨hc, hrest, hlt⟩ := drop_cons_inv hd
    have hy : y0 < h := by rw [← hn.1]; exact hlt
    have hrl : r.length = w := hn.2 r (mem_of_getElem?_some hc)
    obtain ⟨board1, e1, r1, p1⟩ := regenerateRow_ok next y0 hy r 0 board hb
      (by simp [hc]) (by omega)
    obtain ⟨board2, e2, r2, p2⟩ := ih (y0 + 1) board1 r1 hrest
    refine ⟨board2, ?_, r2, ?_⟩
    · unfold regenerateRows
      simp only [bind, Except.bind, e1]
      exact e2
    · intro y1 x1
      rw [p2 y1 x1, p1 y1 x1]
      by_cases e : y1 = y0
      · subst e
        have hyh : (y0 : Int) < h := by omega
        simp [hyh]
      · have q1 : ((y0 : Int) + 1 ≤ y1 ∧ y1 < h) ↔ ((y0 : Int) ≤ y1 ∧ y1 < h) := by omega
        simp [e, q1]

/-- Outside a rectangular matrix the bordered board is dead. -/
theorem bordered_outside {h w : Nat} {m : Matrix} (hm : Rect h w m) (y x : Int)
    (ho : ¬ ((0 ≤ y ∧ y < h) ∧ (0 ≤ x ∧ x < w))) : bordered m y x = dead := by
  unfold bordered
  split_ifs with hb
  · by_cases hy : y < h
    · obtain ⟨r, hr, hrl⟩ := rect_row hm (y := y.toNat) (by omega)
      have hx : r.length ≤ x.toNat := by omega
      simp [hr, List.getElem?_eq_none hx]
    · have hy2 : m.length ≤ y.toNat := by have := hm.1; omega
      simp [List.getElem?_eq_none hy2]
  · rfl

/-- Two matrices of the same shape with the same cells are equal. -/
theorem rect_ext {h w : Nat} {a b : Matrix} (ha : Rect h w a) (hb : Rect h w b)
    (hp : ∀ y x : Int, bordered a y x = bordered b y x) : a = b := by
  apply List.ext_getElem (by rw [ha.1, hb.1])
  intro y hya hyb
  have hla : (a[y]).length = w := ha.2 _ (List.getElem_mem hya)
  have hlb : (b[y]).length = w := hb.2 _ (List.getElem_mem hyb)
  apply List.ext_getElem (by rw [hla, hlb])
  intro x hxa hxb
  have := hp y x
  simpa [bordered, List.getElem?_eq_getElem hya, List.getElem?_eq_getElem hyb,
    List.getElem?_eq_getElem hxa, List.getElem?_eq_getElem hxb] using this

/-- The simultaneous update has the shape of the board. -/
theorem rect_nextGen (h w : Nat) (m : Matrix) : Rect h w (nextGen h w m) := by
  refine ⟨by simp [nextGen], ?_⟩
  intro r hr
  simp only [nextGen, List.mem_map] at hr
  obtain ⟨y, _, rfl⟩ := hr
  simp

/-- The cells of the simultaneous update. -/
theorem bordered_nextGen (h w : Nat) (m : Matrix) (y x : Int) :
    bordered (nextGen h w m) y x =
      if (0 ≤ y ∧ y < h) ∧ (0 ≤ x ∧ x < w) then stepCell m h w y x else dead := by
  split_ifs with hi
  · obtain ⟨⟨hy0, hy⟩, hx0, hx⟩ := hi
    have hy1 : y.toNat < h := by omega
    have hx1 : x.toNat < w := by omega
    simp [bordered, nextGen, hy0, hx0, List.getElem?_map, List.getElem?_range hy1,
      List.getElem?_range hx1, Int.toNat_of_nonneg hy0, Int.toNat_of_nonneg hx0]
  · exact bordered_outside (rect_nextGen h w m) y x hi

/-- On a rectangular board of at least 2 by 2, one iteration of the outer loop of `main` completes; it leaves the simultaneous update in both `board` and `next` and prints the old board. -/
theorem advance_ok {h w : Nat} (s : Sim) (hg : s.genLength = h) (hr : s.rowLength = w)
    (hb : Rect h w s.board) (hn : Rect h w s.next) (h2 : 2 ≤ h) (w2 : 2 ≤ w) :
    advance s = Except.ok { s with board := nextGen h w s.board, next := nextGen h w s.board,
                                   out := s.out ++ render s.board } := by
  obtain ⟨next1, e1, r1, p1⟩ := visitRows_ok hb h2 w2 s.board 0 s.next s.out hn rfl
  simp only [Nat.cast_zero] at p1
  have hnext : next1 = nextGen h w s.board := by
    apply rect_ext r1 (rect_nextGen h w _)
    intro y x
    rw [p1, bordered_nextGen]
    split_ifs with c1
    · rfl
    · exact bordered_outside hn y x c1
  subst hnext
  obtain ⟨board1, e2, r2, p2⟩ := regenerateRows_ok r1 _ 0 s.board hb rfl
  simp only [Nat.cast_zero, List.drop_zero] at p2 e2
  have hboard : board1 = nextGen h w s.board := by
    apply rect_ext r2 (rect_nextGen h w _)
    intro y x
    rw [p2]
    split_ifs with c1
    · rfl
    · rw [bordered_outside hb y x c1, bordered_outside (rect_nextGen h w _) y x c1]
  subst hboard
  unfold advance
  rw [hg, hr]
  simp only [bind, Except.bind, e1, regenerate, e2]
  rfl

/-! ## Whole runs, degenerate shapes, particular boards -/

/-- On a rectangular board the bounds check of the clipped count is redundant. -/
theorem clippedCount_eq_fullCount {h w : Nat} {m : Matrix} (hm : Rect h w m) (y x : Int) :
    clippedCount m h w y x = fullCount m y x := by
  unfold clippedCount fullCount
  congr 3
  funext d
  by_cases hi : (0 ≤ y + d.1 ∧ y + d.1 < h) ∧ (0 ≤ x + d.2 ∧ x + d.2 < w)
  · have hi2 : 0 ≤ y + d.1 ∧ y + d.1 < h ∧ 0 ≤ x + d.2 ∧ x + d.2 < w :=
      ⟨hi.1.1, hi.1.2, hi.2.1, hi.2.2⟩
    simp [hi2]
  · have hd := bordered_outside hm _ _ hi
    have hne : dead ≠ alive := by decide
    simp [hd, hne]

/-- The start-up statements of `main` on a rectangular seed with at least one row. -/
theorem setup_ok {h w : Nat} {sd : Matrix} (hm : Rect h w sd) (h1 : 1 ≤ h) :
    setup sd = Except.ok { genLength := h, rowLength := w, board := sd,
                           next := uniform h w 0, out := [] } := by
  obtain ⟨r, hr, hrl⟩ := rect_row hm (y := 0) (by omega)
  unfold setup
  rw [index_ok sd 0 r (le_refl 0) hr]
  simp [bind, Except.bind, pure, Except.pure, hm.1, hrl, uniform]

/-- A uniform matrix is rectangular. -/
theorem rect_uniform (h w : Nat) (v : State) : Rect h w (uniform h w v) := by
  refine ⟨by simp [uniform], ?_⟩
  intro r hr
  rw [uniform, List.mem_replicate] at hr
  rw [hr.2, List.length_replicate]

/-- Any number of iterations completes on a board of at least 2 by 2 and iterates the simultaneous update. -/
theorem advances_ok {h w : Nat} (h2 : 2 ≤ h) (w2 : 2 ≤ w) :
    ∀ (k : Nat) (s : Sim), s.genLength = h → s.rowLength = w → Rect h w s.board →
      Rect h w s.next →
      ∃ s1, advances k s = Except.ok s1 ∧ s1.board = (nextGen h w)^[k] s.board ∧
        s1.genLength = h ∧ s1.rowLength = w ∧ Rect h w s1.board ∧ Rect h w s1.next := by
  intro k
  induction k with
  | zero =>
    intro s hg hr hb hn
    exact ⟨s, rfl, rfl, hg, hr, hb, hn⟩
  | succ k ih =>
    intro s hg hr hb hn
    obtain ⟨s1, e1, b1, g1, r1, rb1, rn1⟩ :=
      ih { s with board := nextGen h w s.board, next := nextGen h w s.board,
                  out := s.out ++ render s.board }
        hg hr (rect_nextGen h w _) (rect_nextGen h w _)
    refine ⟨s1, ?_, ?_, g1, r1, rb1, rn1⟩
    · unfold advances
      simp only [bind, Except.bind, advance_ok s hg hr hb hn h2 w2]
      exact e1
    · rw [b1, Function.iterate_succ_apply]

/-- On a board with a single row or a single column the count at `(0, 0)` reads out of range. -/
theorem neighbours_fault {h w : Nat} {board : Matrix} (hb : Rect h w board)
    (h1 : 1 ≤ h) (w1 : 1 ≤ w) (hs : h = 1 ∨ w = 1) :
    neighbours h w board 0 0 = Except.error Fault.indexOutOfRange := by
  obtain ⟨r, hr, hrl⟩ := rect_row hb (y := 0) (by omega)
  have hrow : index board 0 = Except.ok r := index_ok board 0 r (le_refl 0) hr
  unfold neighbours
  simp only [if_true, zero_add]
  by_cases hw : w = 1
  · have h01 : cellAt board 0 1 = Except.error Fault.indexOutOfRange := by
      unfold cellAt
      rw [hrow]
      show index r 1 = _
      unfold index
      have : r[(1 : Int).toNat]? = none := List.getElem?_eq_none (by simp; omega)
      rw [if_neg (by decide), this]
    rw [h01]
    rfl
  · have hh : h = 1 := by omega
    have h01 : cellAt board 0 1 = Except.ok (bordered board 0 1) :=
      cellAt_ok hb 0 1 (by omega) (by omega) (by omega) (by omega)
    have h10 : cellAt board 1 0 = Except.error Fault.indexOutOfRange := by
      unfold cellAt
      have : index board 1 = Except.error Fault.indexOutOfRange := by
        unfold index
        have : board[(1 : Int).toNat]? = none :=
          List.getElem?_eq_none (by have := hb.1; simp; omega)
        rw [if_neg (by decide), this]
      rw [this]
      rfl
    rw [h01, h10]
    rfl

/-- On a rectangular board with a single row or a single column the iteration faults. -/
theorem advance_fault {h w : Nat} (s : Sim) (hg : s.genLength = h) (hr : s.rowLength = w)
    (hb : Rect h w s.board) (h1 : 1 ≤ h) (w1 : 1 ≤ w) (hs : h = 1 ∨ w = 1) :
    advance s = Except.error Fault.indexOutOfRange := by
  have hn := neighbours_fault hb h1 w1 hs
  obtain ⟨r, hr0, hrl⟩ := rect_row hb (y := 0) (by omega)
  cases hbd : s.board with
  | nil => rw [hbd] at hr0; simp at hr0
  | cons r0 rest =>
    rw [hbd] at hr0
    simp at hr0
    subst hr0
    cases r0 with
    | nil => simp at hrl; omega
    | cons c cs =>
      rw [hbd] at hn
      unfold advance
      rw [hg, hr, hbd]
      unfold visitRows visitRow visitCell
      simp only [Nat.cast_zero, hn]
      rfl

/-- On a board without rows or without columns the iteration visits no cell and changes nothing. -/
theorem advance_degenerate {h w : Nat} (s : Sim) (hb : Rect h w s.board)
    (hn : Rect h w s.next) (hz : h = 0 ∨ w = 0) : advance s = Except.ok s := by
  have hrows : ∀ (rs : List (List State)), (∀ r ∈ rs, r = []) →
      ∀ (y : Nat) (nx : Matrix) (o : List String),
        visitRows s.genLength s.rowLength s.board rs y nx o = Except.ok (nx, o) := by
    intro rs
    induction rs with
    | nil => intro _ y nx o; rfl
    | cons r rest ih =>
      intro hall y nx o
      have hr : r = [] := hall r (List.mem_cons_self _ _)
      subst hr
      unfold visitRows visitRow
      simp only [bind, Except.bind, pure, Except.pure]
      exact ih (fun q hq => hall q (List.mem_cons_of_mem _ hq)) _ _ _
  have hregen : ∀ (rs : List (List State)), (∀ r ∈ rs, r = []) →
      ∀ (y : Nat) (b : Matrix), regenerateRows rs y b = Except.ok b := by
    intro rs
    induction rs with
    | nil => intro _ y b; rfl
    | cons r rest ih =>
      intro hall y b
      have hr : r = [] := hall r (List.mem_cons_self _ _)
      subst hr
      unfold regenerateRows regenerateRow
      simp only [bind, Except.bind, pure, Except.pure]
      exact ih (fun q hq => hall q (List.mem_cons_of_mem _ hq)) _ _
  have hempty : ∀ m : Matrix, Rect h w m → ∀ r ∈ m, r = [] := by
    intro m hm r hr
    rcases hz with hz | hz
    · have : m = [] := List.eq_nil_of_length_eq_zero (by rw [hm.1, hz])
      rw [this] at hr
      cases hr
    · exact List.eq_nil_of_length_eq_zero (by rw [hm.2 r hr, hz])
  unfold advance regenerate
  rw [hrows s.board (hempty _ hb)]
  simp only [bind, Except.bind]
  rw [hregen s.next (hempty _ hn)]
  rfl

/-- The program on a rectangular seed of at least 2 by 2 reaches the end of every generation. -/
theorem run_ok {h w : Nat} {sd : Matrix} (hm : Rect h w sd) (h2 : 2 ≤ h) (w2 : 2 ≤ w)
    (k : Nat) :
    ∃ s, run sd k = Except.ok s ∧ s.board = (nextGen h w)^[k] sd ∧
      s.genLength = h ∧ s.rowLength = w ∧ Rect h w s.board ∧ Rect h w s.next := by
  obtain ⟨s1, e1, p1⟩ := advances_ok h2 w2 k
    { genLength := h, rowLength := w, board := sd, next := uniform h w 0, out := [] }
    rfl rfl hm (rect_uniform h w 0)
  refine ⟨s1, ?_, p1⟩
  unfold run
  rw [setup_ok hm (by omega)]
  exact e1

/-- Every cell of the all-dead board, and of its border, is dead. -/
theorem bordered_uniform_dead (h w : Nat) (y x : Int) :
    bordered (uniform h w dead) y x = dead := by
  by_cases hi : (0 ≤ y ∧ y < h) ∧ (0 ≤ x ∧ x < w)
  · obtain ⟨⟨hy0, hy⟩, hx0, hx⟩ := hi
    have hy1 : y.toNat < h := by omega
    have hx1 : x.toNat < w := by omega
    simp [bordered, uniform, hy0, hx0, List.getElem?_replicate, hy1, hx1]
  · exact bordered_outside (rect_uniform h w dead) y x hi

/-- The all-dead board is a fixed point of the simultaneous update. -/
theorem nextGen_uniform_dead (h w : Nat) :
    nextGen h w (uniform h w dead) = uniform h w dead := by
  apply rect_ext (rect_nextGen h w _) (rect_uniform h w dead)
  intro y x
  rw [bordered_nextGen, bordered_uniform_dead]
  split_ifs
  · have hne : (dead : State) ≠ alive := by decide
    have hc : clippedCount (uniform h w dead) h w y x = 0 := by
      simp [clippedCount, bordered_uniform_dead, hne]
    simp [stepCell, bordered_uniform_dead, hc, rulesOfLife, hne]
  · rfl

/-- The all-dead board of at least 2 by 2 stays all-dead for every number of generations. -/
theorem allDead_stays (h w : Nat) (h2 : 2 ≤ h) (w2 : 2 ≤ w) (k : Nat) :
    ∃ s, run (uniform h w dead) k = Except.ok s ∧ s.board = uniform h w dead := by
  obtain ⟨s, e, b, _⟩ := run_ok (rect_uniform h w dead) h2 w2 k
  refine ⟨s, e, ?_⟩
  rw [b]
  exact Function.iterate_fixed (nextGen_uniform_dead h w) k

/-- On a board whose alive cells are one 2 by 2 block, the rule leaves every cell as it is. -/
theorem block_step {h w : Nat} {board : Matrix} (y0 x0 : Int)
    (hy0 : 0 ≤ y0) (hy1 : y0 + 1 < h) (hx0 : 0 ≤ x0) (hx1 : x0 + 1 < w)
    (hblock : ∀ y x : Int, 0 ≤ y → y < h → 0 ≤ x → x < w →
      bordered board y x =
        if (y = y0 ∨ y = y0 + 1) ∧ (x = x0 ∨ x = x0 + 1) then alive else dead)
    (y x : Int) (hy : 0 ≤ y ∧ y < h) (hx : 0 ≤ x ∧ x < w) :
    stepCell board h w y x = bordered board y x := by
  have hne : (dead : State) ≠ alive := by decide
  have hterm : ∀ y1 x1 : Int,
      (if 0 ≤ y1 ∧ y1 < h ∧ 0 ≤ x1 ∧ x1 < w then ind (bordered board y1 x1) else 0) =
        if (y1 = y0 ∨ y1 = y0 + 1) ∧ (x1 = x0 ∨ x1 = x0 + 1) then (1 : Int) else 0 := by
    intro y1 x1
    by_cases hi : 0 ≤ y1 ∧ y1 < h ∧ 0 ≤ x1 ∧ x1 < w
    · rw [if_pos hi, hblock y1 x1 hi.1 hi.2.1 hi.2.2.1 hi.2.2.2]
      unfold ind
      split_ifs <;> simp_all
    · rw [if_neg hi, if_neg (by omega)]
  unfold stepCell
  rw [clippedCount_eq, offsets_eq, hblock y x hy.1 hy.2 hx.1 hx.2]
  simp only [List.map, List.sum_cons, List.sum_nil, hterm]
  have cy : y < y0 - 1 ∨ y = y0 - 1 ∨ y = y0 ∨ y = y0 + 1 ∨ y = y0 + 2 ∨ y0 + 2 < y := by omega
  have cx : x < x0 - 1 ∨ x = x0 - 1 ∨ x = x0 ∨ x = x0 + 1 ∨ x = x0 + 2 ∨ x0 + 2 < x := by omega
  rcases cy with c | c | c | c | c | c <;> rcases cx with d | d | d | d | d | d <;>
    simp (disch := omega) only [if_pos, if_neg] <;>
    simp [rulesOfLife, hne]

/-- Every in-bounds cell of the all-alive board is alive. -/
theorem bordered_uniform_alive (h w : Nat) (y x : Int)
    (hy0 : 0 ≤ y) (hy : y < h) (hx0 : 0 ≤ x) (hx : x < w) :
    bordered (uniform h w alive) y x = alive := by
  have hy1 : y.toNat < h := by omega
  have hx1 : x.toNat < w := by omega
  simp [bordered, uniform, hy0, hx0, List.getElem?_replicate, hy1, hx1]

/-! ## Properties of the program -/

/-- C1: the rule applied to a visited cell is the four-rule table.  For every neighbour count
`n` (in particular every `n` in `0..8`) an alive cell becomes alive when `n = 2` or `n = 3` and
dead otherwise, that is exactly when `n < 2` or `n > 3`; a dead cell becomes alive when `n = 3`
and dead otherwise; the outcome of a dead or alive cell is always dead or alive, and it is the
value of a function of the pair `(cell, n)`. -/
theorem rulesOfLife_table (n : Int) :
    ((rulesOfLife alive n).1 = if n = 2 ∨ n = 3 then alive else dead) ∧
    ((rulesOfLife alive n).1 = dead ↔ (n < 2 ∨ 3 < n)) ∧
    ((rulesOfLife dead n).1 = if n = 3 then alive else dead) ∧
    ((rulesOfLife dead n).1 = dead ↔ n ≠ 3) ∧
    ((rulesOfLife alive n).1 = alive ∨ (rulesOfLife alive n).1 = dead) ∧
    ((rulesOfLife dead n).1 = alive ∨ (rulesOfLife dead n).1 = dead) := by
  have hne : (dead : State) ≠ alive := by decide
  have hne2 : (alive : State) ≠ dead := by decide
  refine ⟨by simp [rulesOfLife], ?_, by simp [rulesOfLife, hne], ?_, ?_, ?_⟩
  · simp only [rulesOfLife, if_true]
    split_ifs with hc
    · constructor
      · intro e; exact absurd e hne2
      · intro e; omega
    · constructor
      · intro _; omega
      · intro _; rfl
  · simp only [rulesOfLife, if_neg hne, if_true]
    split_ifs with hc
    · constructor
      · intro e; exact absurd e hne2
      · intro e; exact absurd hc e
    · exact ⟨fun _ => hc, fun _ => rfl⟩
  · simp only [rulesOfLife, if_true]
    split_ifs
    · exact Or.inl rfl
    · exact Or.inr rfl
  · simp only [rulesOfLife, if_neg hne, if_true]
    split_ifs
    · exact Or.inl rfl
    · exact Or.inr rfl

/-- C2: on a rectangular board with at least 2 rows and 2 columns, at every in-bounds
coordinate, the count computed by the nested switch through `countAliveNeighbours` is the
number of the eight neighbour positions that lie inside the board and hold an alive cell,
which is also the full 8-neighbour count on the board surrounded by dead cells. -/
theorem neighbours_clipped (h w : Nat) (board : Matrix) (y x : Int)
    (hb : Rect h w board) (h2 : 2 ≤ h) (w2 : 2 ≤ w)
    (hy0 : 0 ≤ y) (hy : y < h) (hx0 : 0 ≤ x) (hx : x < w) :
    neighbours h w board y x = Except.ok (clippedCount board h w y x) ∧
    clippedCount board h w y x = fullCount board y x :=
  ⟨neighbours_eq hb h2 w2 y x hy0 hy hx0 hx, clippedCount_eq_fullCount hb y x⟩

/-- Witness of C2: the cell `(4, 3)` of the Beacon seed has four alive neighbours. -/
theorem neighbours_clipped_witness :
    neighbours 10 8 seed 4 3 = Except.ok (clippedCount seed 10 8 4 3) ∧
    clippedCount seed 10 8 4 3 = fullCount seed 4 3 :=
  neighbours_clipped 10 8 seed 4 3 (by decide) (by decide) (by decide)
    (by decide) (by decide) (by decide) (by decide)

/-- C3: one advance is a simultaneous update.  On a rectangular board with at least 2 rows
and 2 columns (the buffer `next` having the shape of the board, as `main` allocates it) the
advance completes, and afterwards the cell at every `(y, x)` of the board is
the rule applied to the cell at `(y, x)` and to the neighbour count of `(y, x)`, both read from
the board as it was before the advance. -/
theorem advance_simultaneous (h w : Nat) (s : Sim)
    (hg : s.genLength = h) (hr : s.rowLength = w)
    (hb : Rect h w s.board) (hn : Rect h w s.next) (h2 : 2 ≤ h) (w2 : 2 ≤ w) :
    ∃ s1, advance s = Except.ok s1 ∧
      ∀ y x : Int, 0 ≤ y → y < h → 0 ≤ x → x < w →
        ∃ c n, cellAt s.board y x = Except.ok c ∧
          neighbours s.genLength s.rowLength s.board y x = Except.ok n ∧
          cellAt s1.board y x = Except.ok (rulesOfLife c n).1 := by
  refine ⟨_, advance_ok s hg hr hb hn h2 w2, ?_⟩
  intro y x hy0 hy hx0 hx
  refine ⟨bordered s.board y x, clippedCount s.board h w y x,
    cellAt_ok hb y x hy0 hy hx0 hx, ?_, ?_⟩
  · rw [hg, hr]
    exact neighbours_eq hb h2 w2 y x hy0 hy hx0 hx
  · show cellAt (nextGen h w s.board) y x = _
    rw [cellAt_ok (rect_nextGen h w _) y x hy0 hy hx0 hx, bordered_nextGen,
      if_pos ⟨⟨hy0, hy⟩, hx0, hx⟩]
    rfl

/-- Witness of C3: the first advance of the program on the Beacon seed. -/
theorem advance_simultaneous_witness :
    ∃ s1, advance ⟨10, 8, seed, uniform 10 8 0, []⟩ = Except.ok s1 ∧
      ∀ y x : Int, 0 ≤ y → y < (10 : Nat) → 0 ≤ x → x < (8 : Nat) →
        ∃ c n, cellAt seed y x = Except.ok c ∧
          neighbours 10 8 seed y x = Except.ok n ∧
          cellAt s1.board y x = Except.ok (rulesOfLife c n).1 :=
  advance_simultaneous 10 8 ⟨10, 8, seed, uniform 10 8 0, []⟩ rfl rfl (by decide) (by decide)
    (by decide) (by decide)

/-- C4 (evaluation at the failing input): on the rectangular board of one row and three
columns the first advance of the program does not complete.  The cell `(0, 0)` takes the
branch `case 0` of both switches and reads `board[1][0]`, which is out of range: the run ends
in the index fault. -/
theorem advance_single_row_faults :
    Rect 1 3 [[0, 0, 0]] ∧
    setup [[0, 0, 0]] = Except.ok ⟨1, 3, [[0, 0, 0]], [[0, 0, 0]], []⟩ ∧
    cellAt [[0, 0, 0]] 1 0 = Except.error Fault.indexOutOfRange ∧
    neighbours 1 3 [[0, 0, 0]] 0 0 = Except.error Fault.indexOutOfRange ∧
    run [[0, 0, 0]] 1 = Except.error Fault.indexOutOfRange :=
  ⟨by decide, rfl, rfl, rfl, rfl⟩

/-- C5: the Beacon seed has 10 rows of 8 cells, alive exactly at rows 3-4 columns 2-3 and rows
5-6 columns 4-5; every even number of advances of the program returns the board to the seed,
and after every odd number of advances the board differs from the seed. -/
theorem beacon_period_two :
    seed = (List.range 10).map (fun y => (List.range 8).map (fun x =>
      if ((3 ≤ y ∧ y ≤ 4) ∧ (2 ≤ x ∧ x ≤ 3)) ∨ ((5 ≤ y ∧ y ≤ 6) ∧ (4 ≤ x ∧ x ≤ 5))
      then alive else dead)) ∧
    (∃ s, run seed 2 = Except.ok s ∧ s.board = seed) ∧
    (∀ k : Nat, ∃ s, run seed (2 * k) = Except.ok s ∧ s.board = seed) ∧
    (∀ k : Nat, ∃ s, run seed (2 * k + 1) = Except.ok s ∧ s.board ≠ seed) := by
  have hrect : Rect 10 8 seed := by decide
  have hsq : (nextGen 10 8)^[2] seed = seed := by
    show nextGen 10 8 (nextGen 10 8 seed) = seed
    decide
  have heven : ∀ k : Nat, (nextGen 10 8)^[2 * k] seed = seed := by
    intro k
    rw [Function.iterate_mul]
    exact Function.iterate_fixed hsq k
  refine ⟨by decide, ?_, ?_, ?_⟩
  · obtain ⟨s, e, b, _⟩ := run_ok hrect (by decide) (by decide) 2
    exact ⟨s, e, by rw [b, hsq]⟩
  · intro k
    obtain ⟨s, e, b, _⟩ := run_ok hrect (by decide) (by decide) (2 * k)
    exact ⟨s, e, by rw [b, heven k]⟩
  · intro k
    obtain ⟨s, e, b, _⟩ := run_ok hrect (by decide) (by decide) (2 * k + 1)
    refine ⟨s, e, ?_⟩
    rw [b, Function.iterate_succ_apply', heven k]
    decide

/-- C6: one advance of the program on the Beacon seed yields exactly the board whose alive
cells are (3,2), (3,3), (4,2), (5,5), (6,4), (6,5); the corner cells (4,3) and (5,4), alive
in the seed, are dead, and every other cell of the 10 by 8 board is dead. -/
theorem beacon_first_advance :
    ∃ s, run seed 1 = Except.ok s ∧
      s.board = (List.range 10).map (fun y => (List.range 8).map (fun x =>
        if (y, x) ∈ [(3, 2), (3, 3), (4, 2), (5, 5), (6, 4), (6, 5)] then alive else dead)) ∧
      cellAt seed 4 3 = Except.ok alive ∧ cellAt seed 5 4 = Except.ok alive ∧
      cellAt s.board 4 3 = Except.ok dead ∧ cellAt s.board 5 4 = Except.ok dead := by
  obtain ⟨s, e, b, _⟩ := run_ok (show Rect 10 8 seed by decide) (by decide) (by decide) 1
  refine ⟨s, e, ?_, rfl, rfl, ?_, ?_⟩
  · rw [b]
    show nextGen 10 8 seed = _
    decide
  · rw [b]
    rfl
  · rw [b]
    rfl

/-- C7 (evaluation at the failing input): on the all-dead board of one row and one column
no advance completes: for every `k`, running `k + 1` advances ends in the index fault. -/
theorem allDead_single_cell_faults (k : Nat) :
    run (uniform 1 1 dead) (k + 1) = Except.error Fault.indexOutOfRange := by
  unfold run
  rw [setup_ok (rect_uniform 1 1 dead) (le_refl 1)]
  unfold advances
  simp only [bind, Except.bind]
  rw [advance_fault (h := 1) (w := 1) _ rfl rfl (rect_uniform 1 1 dead) (le_refl 1) (le_refl 1)
    (Or.inl rfl)]

/-- C8: block still life.  On a rectangular board with at least 2 rows and 2 columns whose
alive cells are exactly the four cells of one 2x2 block inside the board, every other cell
being dead, one advance completes and leaves the board unchanged. -/
theorem block_still_life (h w : Nat) (s : Sim) (y0 x0 : Int)
    (hg : s.genLength = h) (hr : s.rowLength = w)
    (hb : Rect h w s.board) (hn : Rect h w s.next) (h2 : 2 ≤ h) (w2 : 2 ≤ w)
    (hy0 : 0 ≤ y0) (hy1 : y0 + 1 < h) (hx0 : 0 ≤ x0) (hx1 : x0 + 1 < w)
    (hblock : ∀ y x : Int, 0 ≤ y → y < h → 0 ≤ x → x < w →
      cellAt s.board y x = Except.ok
        (if (y = y0 ∨ y = y0 + 1) ∧ (x = x0 ∨ x = x0 + 1) then alive else dead)) :
    ∃ s1, advance s = Except.ok s1 ∧ s1.board = s.board := by
  refine ⟨_, advance_ok s hg hr hb hn h2 w2, ?_⟩
  show nextGen h w s.board = s.board
  have hblock2 : ∀ y x : Int, 0 ≤ y → y < h → 0 ≤ x → x < w →
      bordered s.board y x =
        if (y = y0 ∨ y = y0 + 1) ∧ (x = x0 ∨ x = x0 + 1) then alive else dead := by
    intro y x a b c d
    have e := hblock y x a b c d
    rw [cellAt_ok hb y x a b c d] at e
    exact Except.ok.inj e
  apply rect_ext (rect_nextGen h w _) hb
  intro y x
  rw [bordered_nextGen]
  split_ifs with hi
  · exact block_step y0 x0 hy0 hy1 hx0 hx1 hblock2 y x hi.1 hi.2
  · exact (bordered_outside hb y x hi).symm

/-- Witness of C8: the block at rows 1-2, columns 1-2 in the interior of a 4 by 4 board. -/
theorem block_still_life_witness :
    ∃ s1, advance ⟨4, 4, [[0, 0, 0, 0], [0, 1, 1, 0], [0, 1, 1, 0], [0, 0, 0, 0]],
        uniform 4 4 0, []⟩ = Except.ok s1 ∧
      s1.board = [[0, 0, 0, 0], [0, 1, 1, 0], [0, 1, 1, 0], [0, 0, 0, 0]] :=
  block_still_life 4 4
    ⟨4, 4, [[0, 0, 0, 0], [0, 1, 1, 0], [0, 1, 1, 0], [0, 0, 0, 0]], uniform 4 4 0, []⟩ 1 1
    rfl rfl (by decide) (by decide) (by decide) (by decide)
    (by decide) (by decide) (by decide) (by decide)
    (by
      intro y x a b c d
      have b4 : y < 4 := b
      have d4 : x < 4 := d
      interval_cases y <;> interval_cases x <;> rfl)

/-- C9: on the all-alive board with at least 2 rows and 2 columns the neighbour count
computed by the nested switch is 3 at every corner cell, 5 at every edge cell that is not a
corner, and 8 at every interior cell. -/
theorem allAlive_counts (h w : Nat) (y x : Int) (h2 : 2 ≤ h) (w2 : 2 ≤ w)
    (hy0 : 0 ≤ y) (hy : y < h) (hx0 : 0 ≤ x) (hx : x < w) :
    neighbours h w (uniform h w alive) y x = Except.ok
      (if (y = 0 ∨ y = (h : Int) - 1) ∧ (x = 0 ∨ x = (w : Int) - 1) then 3
       else if (y = 0 ∨ y = (h : Int) - 1) ∨ (x = 0 ∨ x = (w : Int) - 1) then 5
       else 8) := by
  have hb := rect_uniform h w alive
  unfold neighbours
  split_ifs <;>
    first
    | (exfalso; omega)
    | (simp (disch := omega) only [cellAt_ok hb, bordered_uniform_alive]
       rfl)

/-- Witness of C9: the 3 by 3 all-alive board has count 3 at the corner (0,0), 5 at the top
edge cell (0,1) and 8 at the centre (1,1). -/
theorem allAlive_counts_witness :
    neighbours 3 3 (uniform 3 3 alive) 0 0 = Except.ok 3 ∧
    neighbours 3 3 (uniform 3 3 alive) 0 1 = Except.ok 5 ∧
    neighbours 3 3 (uniform 3 3 alive) 1 1 = Except.ok 8 :=
  ⟨allAlive_counts 3 3 0 0 (by decide) (by decide) (by decide) (by decide) (by decide)
      (by decide),
   allAlive_counts 3 3 0 1 (by decide) (by decide) (by decide) (by decide) (by decide)
      (by decide),
   allAlive_counts 3 3 1 1 (by decide) (by decide) (by decide) (by decide) (by decide)
      (by decide)⟩

/-- C10: the board after an advance depends only on the board before it.  Two states with
the same lengths and the same rectangular board, whose scratch buffers `next` have the shape
of the board and arbitrary contents (and whose printed text is arbitrary), have the same
outcome: either both advances fault, or both complete with equal boards and equal scratch
buffers.  On a board with at least 2 rows and 2 columns both complete, so no value held by
`next` before the advance survives it. -/
theorem advance_scratch_independent (h w : Nat) (s t : Sim)
    (hg : s.genLength = h) (hr : s.rowLength = w)
    (htg : t.genLength = h) (htr : t.rowLength = w) (hst : t.board = s.board)
    (hb : Rect h w s.board) (hsn : Rect h w s.next) (htn : Rect h w t.next) :
    (advance s).map (fun r => (r.board, r.next)) =
      (advance t).map (fun r => (r.board, r.next)) ∧
    (2 ≤ h → 2 ≤ w → ∃ s1 t1, advance s = Except.ok s1 ∧ advance t = Except.ok t1 ∧
      s1.board = t1.board ∧ s1.next = t1.next) := by
  have hbt : Rect h w t.board := by rw [hst]; exact hb
  constructor
  · by_cases h2 : 2 ≤ h ∧ 2 ≤ w
    · rw [advance_ok s hg hr hb hsn h2.1 h2.2, advance_ok t htg htr hbt htn h2.1 h2.2, hst]
      rfl
    · by_cases hz : h = 0 ∨ w = 0
      · rw [advance_degenerate s hb hsn hz, advance_degenerate t hbt htn hz]
        have hnext : s.next = t.next := by
          apply rect_ext hsn htn
          intro y x
          rw [bordered_outside hsn y x (by omega), bordered_outside htn y x (by omega)]
        show Except.ok (s.board, s.next) = Except.ok (t.board, t.next)
        rw [hnext, hst]
      · rw [advance_fault s hg hr hb (by omega) (by omega) (by omega),
          advance_fault t htg htr hbt (by omega) (by omega) (by omega)]
  · intro h2 w2
    refine ⟨_, _, advance_ok s hg hr hb hsn h2 w2, advance_ok t htg htr hbt htn h2 w2, ?_, ?_⟩
    · show nextGen h w s.board = nextGen h w t.board
      rw [hst]
    · show nextGen h w s.board = nextGen h w t.board
      rw [hst]

/-- Witness of C10: the 2 by 2 all-alive board advanced once with a zeroed scratch buffer and
once with a scratch buffer full of other values. -/
theorem advance_scratch_independent_witness :
    (advance ⟨2, 2, [[1, 1], [1, 1]], [[0, 0], [0, 0]], []⟩).map (fun r => (r.board, r.next)) =
      (advance ⟨2, 2, [[1, 1], [1, 1]], [[7, 1], [1, 9]], ["x"]⟩).map
        (fun r => (r.board, r.next)) ∧
    ∃ s1 t1, advance ⟨2, 2, [[1, 1], [1, 1]], [[0, 0], [0, 0]], []⟩ = Except.ok s1 ∧
      advance ⟨2, 2, [[1, 1], [1, 1]], [[7, 1], [1, 9]], ["x"]⟩ = Except.ok t1 ∧
      s1.board = t1.board ∧ s1.next = t1.next :=
  have key := advance_scratch_independent 2 2
    ⟨2, 2, [[1, 1], [1, 1]], [[0, 0], [0, 0]], []⟩
    ⟨2, 2, [[1, 1], [1, 1]], [[7, 1], [1, 9]], ["x"]⟩
    rfl rfl rfl rfl rfl (by decide) (by decide) (by decide)
  ⟨key.1, key.2 (by decide) (by decide)⟩

/-! ## Shape, bounds, printed text, faults, cell values -/

/-- The row lengths of a rectangular matrix. -/
theorem rect_lengths {h w : Nat} {m : Matrix} (hm : Rect h w m) :
    m.map List.length = List.replicate h w := by
  rw [List.eq_replicate_iff]
  refine ⟨by simp [hm.1], ?_⟩
  intro n hn
  obtain ⟨r, hr, rfl⟩ := List.mem_map.mp hn
  exact hm.2 r hr

/-- The count of `countAliveNeighbours` lies between zero and the number of its arguments. -/
theorem countAliveNeighbours_bounds (l : List State) :
    0 ≤ countAliveNeighbours l ∧ countAliveNeighbours l ≤ (l.length : Int) := by
  rw [countAliveNeighbours_eq]
  induction l with
  | nil => simp
  | cons a t ih =>
    simp only [List.map_cons, List.sum_cons, List.length_cons, Nat.cast_add, Nat.cast_one]
    have ha : 0 ≤ ind a ∧ ind a ≤ 1 := by
      unfold ind
      split_ifs <;> omega
    omega

/-- The future cell is dead or alive, whatever the cell and the count. -/
theorem rulesOfLife_two_valued (c : State) (n : Int) :
    (rulesOfLife c n).1 = dead ∨ (rulesOfLife c n).1 = alive := by
  unfold rulesOfLife
  split_ifs
  · exact Or.inr rfl
  · exact Or.inl rfl
  · exact Or.inr rfl
  · exact Or.inl rfl
  · exact Or.inl rfl

/-- On a board of at least 2 by 2 the nested switch passes at most eight cells to
`countAliveNeighbours`, at most three at a corner and at most five on an edge. -/
theorem neighbours_args {h w : Nat} {m : Matrix} (hm : Rect h w m) (h2 : 2 ≤ h) (w2 : 2 ≤ w)
    (y x : Int) (hy0 : 0 ≤ y) (hy : y < h) (hx0 : 0 ≤ x) (hx : x < w) :
    ∃ l : List State, neighbours h w m y x = Except.ok (countAliveNeighbours l) ∧
      l.length ≤ 8 ∧
      (((y = 0 ∨ y = (h : Int) - 1) ∧ (x = 0 ∨ x = (w : Int) - 1)) → l.length ≤ 3) ∧
      (((y = 0 ∨ y = (h : Int) - 1) ∨ (x = 0 ∨ x = (w : Int) - 1)) → l.length ≤ 5) := by
  unfold neighbours
  split_ifs with a b c d e f g
  all_goals
    simp (disch := omega) only [cellAt_ok hm]
    refine ⟨_, rfl, ?_, ?_, ?_⟩
    all_goals
      simp only [List.length_cons, List.length_nil]
      omega

/-- On a rectangular matrix of two-valued cells the glyphs of a row are one glyph per cell. -/
theorem glyphs_two_valued (r : List State) (hr : ∀ c ∈ r, c = dead ∨ c = alive) :
    r.flatMap glyph = r.map (fun c => if c = alive then displayAlive else displayDead) := by
  induction r with
  | nil => rfl
  | cons a t ih =>
    have ht := ih (fun c hc => hr c (List.mem_cons_of_mem _ hc))
    have hne : (dead : State) ≠ alive := by decide
    rcases hr a (List.mem_cons_self _ _) with ha | ha
    · subst ha
      simp [List.flatMap_cons, glyph, hne, ht]
    · subst ha
      simp [List.flatMap_cons, glyph, ht]

/-- The text of a matrix of two-valued cells. -/
theorem render_two_valued (m : Matrix) (hm : ∀ r ∈ m, ∀ c ∈ r, c = dead ∨ c = alive) :
    render m = m.flatMap (fun r =>
      r.map (fun c => if c = alive then displayAlive else displayDead) ++ ["\n"]) := by
  induction m with
  | nil => rfl
  | cons r t ih =>
    have ht := ih (fun q hq => hm q (List.mem_cons_of_mem _ hq))
    unfold render at ht ⊢
    rw [List.flatMap_cons, List.flatMap_cons, ht,
      glyphs_two_valued r (hm r (List.mem_cons_self _ _))]

/-- The function `regenerate` on two matrices of one rectangular shape returns `next`. -/
theorem regenerate_ok {h w : Nat} {next board : Matrix} (hn : Rect h w next)
    (hb : Rect h w board) : regenerate next board = Except.ok next := by
  obtain ⟨b1, e, r, p⟩ := regenerateRows_ok hn next 0 board hb rfl
  simp only [Nat.cast_zero] at p
  have hb1 : b1 = next := by
    apply rect_ext r hn
    intro y x
    rw [p]
    split_ifs with c1
    · rfl
    · rw [bordered_outside hb y x c1, bordered_outside hn y x c1]
  unfold regenerate
  rw [e, hb1]

/-- C11: an advance never changes the shape.  On a rectangular board with at least 2 rows
and 2 columns, after any number `k` of advances (which complete) the board still has `h` rows
of `w` cells each, row by row the same lengths as before, and so has the buffer `next`. -/
theorem advances_keep_shape (h w : Nat) (s : Sim) (k : Nat)
    (hg : s.genLength = h) (hr : s.rowLength = w)
    (hb : Rect h w s.board) (hn : Rect h w s.next) (h2 : 2 ≤ h) (w2 : 2 ≤ w) :
    ∃ s1, advances k s = Except.ok s1 ∧
      Rect h w s1.board ∧ Rect h w s1.next ∧
      s1.board.map List.length = s.board.map List.length ∧
      s1.next.map List.length = s.next.map List.length ∧
      s1.genLength = s.genLength ∧ s1.rowLength = s.rowLength := by
  obtain ⟨s1, e, _, g1, r1, rb, rn⟩ := advances_ok h2 w2 k s hg hr hb hn
  refine ⟨s1, e, rb, rn, ?_, ?_, by rw [g1, hg], by rw [r1, hr]⟩
  · rw [rect_lengths rb, rect_lengths hb]
  · rw [rect_lengths rn, rect_lengths hn]

/-- Witness of C11: three advances of the program state built on the Beacon seed. -/
theorem advances_keep_shape_witness :
    ∃ s1, advances 3 ⟨10, 8, seed, uniform 10 8 0, []⟩ = Except.ok s1 ∧
      Rect 10 8 s1.board ∧ Rect 10 8 s1.next ∧
      s1.board.map List.length = seed.map List.length ∧
      s1.next.map List.length = (uniform 10 8 0).map List.length ∧
      s1.genLength = 10 ∧ s1.rowLength = 8 :=
  advances_keep_shape 10 8 ⟨10, 8, seed, uniform 10 8 0, []⟩ 3 rfl rfl (by decide) (by decide)
    (by decide) (by decide)

/-- C13: on a rectangular board with at least 2 rows and 2 columns, at every in-bounds
coordinate, the neighbour count computed by the nested switch lies in `0..8`, is at most 3
at a corner cell and at most 5 at an edge cell. -/
theorem neighbours_bounds (h w : Nat) (board : Matrix) (y x : Int)
    (hb : Rect h w board) (h2 : 2 ≤ h) (w2 : 2 ≤ w)
    (hy0 : 0 ≤ y) (hy : y < h) (hx0 : 0 ≤ x) (hx : x < w) :
    ∃ n, neighbours h w board y x = Except.ok n ∧ 0 ≤ n ∧ n ≤ 8 ∧
      (((y = 0 ∨ y = (h : Int) - 1) ∧ (x = 0 ∨ x = (w : Int) - 1)) → n ≤ 3) ∧
      (((y = 0 ∨ y = (h : Int) - 1) ∨ (x = 0 ∨ x = (w : Int) - 1)) → n ≤ 5) := by
  obtain ⟨l, e, l8, l3, l5⟩ := neighbours_args hb h2 w2 y x hy0 hy hx0 hx
  obtain ⟨b0, b1⟩ := countAliveNeighbours_bounds l
  refine ⟨_, e, b0, by omega, ?_, ?_⟩
  · intro hc
    have := l3 hc
    omega
  · intro hc
    have := l5 hc
    omega

/-- Witness of C13: the corner `(0, 0)` of the 3 by 3 all-alive board. -/
theorem neighbours_bounds_witness :
    ∃ n, neighbours 3 3 (uniform 3 3 alive) 0 0 = Except.ok n ∧ 0 ≤ n ∧ n ≤ 8 ∧
      ((((0 : Int) = 0 ∨ (0 : Int) = ((3 : Nat) : Int) - 1) ∧
        ((0 : Int) = 0 ∨ (0 : Int) = ((3 : Nat) : Int) - 1)) → n ≤ 3) ∧
      ((((0 : Int) = 0 ∨ (0 : Int) = ((3 : Nat) : Int) - 1) ∨
        ((0 : Int) = 0 ∨ (0 : Int) = ((3 : Nat) : Int) - 1)) → n ≤ 5) :=
  neighbours_bounds 3 3 (uniform 3 3 alive) 0 0 (by decide) (by decide) (by decide)
    (by decide) (by decide) (by decide) (by decide)

/-- C14: the text printed during one advance of a rectangular board with at least 2 rows and
2 columns whose cells are dead or alive is the board as it was before the advance: row by row
from the top, one glyph per cell from left to right (`displayAlive` for an alive cell,
`displayDead` for a dead cell, two different glyphs), every row followed by one line break. -/
theorem advance_prints_old_board (h w : Nat) (s : Sim)
    (hg : s.genLength = h) (hr : s.rowLength = w)
    (hb : Rect h w s.board) (hn : Rect h w s.next) (h2 : 2 ≤ h) (w2 : 2 ≤ w)
    (hcells : ∀ r ∈ s.board, ∀ c ∈ r, c = dead ∨ c = alive) :
    ∃ s1, advance s = Except.ok s1 ∧
      s1.out = s.out ++ s.board.flatMap (fun r =>
        r.map (fun c => if c = alive then displayAlive else displayDead) ++ ["\n"]) ∧
      displayAlive ≠ displayDead := by
  refine ⟨_, advance_ok s hg hr hb hn h2 w2, ?_, by decide⟩
  show s.out ++ render s.board = _
  rw [render_two_valued s.board hcells]

/-- Witness of C14: the 2 by 2 board with one alive cell, which dies in this advance; the
text shows the cells as they were before. -/
theorem advance_prints_old_board_witness :
    ∃ s1, advance ⟨2, 2, [[1, 0], [0, 0]], uniform 2 2 0, []⟩ = Except.ok s1 ∧
      s1.out = [] ++ ([[1, 0], [0, 0]] : Matrix).flatMap (fun r =>
        r.map (fun c => if c = alive then displayAlive else displayDead) ++ ["\n"]) ∧
      displayAlive ≠ displayDead :=
  advance_prints_old_board 2 2 ⟨2, 2, [[1, 0], [0, 0]], uniform 2 2 0, []⟩ rfl rfl
    (by decide) (by decide) (by decide) (by decide) (by decide)

/-- C15: the function `regenerate(next, board)` on two matrices of one rectangular shape
completes and returns a board equal to `next`: same shape, and at every coordinate the cell
of `next`.  It assigns to `board` only, so `next` is what it was. -/
theorem regenerate_copies (h w : Nat) (next board : Matrix)
    (hn : Rect h w next) (hb : Rect h w board) :
    ∃ b1, regenerate next board = Except.ok b1 ∧ b1 = next ∧ Rect h w b1 ∧
      b1.map List.length = board.map List.length ∧
      ∀ y x : Int, cellAt b1 y x = cellAt next y x := by
  refine ⟨next, regenerate_ok hn hb, rfl, hn, ?_, fun _ _ => rfl⟩
  rw [rect_lengths hn, rect_lengths hb]

/-- Witness of C15: two 2 by 3 matrices. -/
theorem regenerate_copies_witness :
    ∃ b1, regenerate [[1, 0, 1], [0, 1, 0]] [[0, 0, 0], [1, 1, 1]] = Except.ok b1 ∧
      b1 = [[1, 0, 1], [0, 1, 0]] ∧ Rect 2 3 b1 ∧
      b1.map List.length = ([[0, 0, 0], [1, 1, 1]] : Matrix).map List.length ∧
      ∀ y x : Int, cellAt b1 y x = cellAt [[1, 0, 1], [0, 1, 0]] y x :=
  regenerate_copies 2 3 [[1, 0, 1], [0, 1, 0]] [[0, 0, 0], [1, 1, 1]] (by decide) (by decide)

/-- C16: for a rectangular seed with at least one row and one column, the first advance of
the program ends in the index fault exactly when the board has a single row or a single
column, and it completes exactly when the board has at least 2 rows and 2 columns. -/
theorem first_advance_fault_iff (h w : Nat) (sd : Matrix)
    (hm : Rect h w sd) (h1 : 1 ≤ h) (w1 : 1 ≤ w) :
    (run sd 1 = Except.error Fault.indexOutOfRange ↔ (h = 1 ∨ w = 1)) ∧
    ((∃ s, run sd 1 = Except.ok s) ↔ (2 ≤ h ∧ 2 ≤ w)) := by
  have hrun : run sd 1 = advance ⟨h, w, sd, uniform h w 0, []⟩ := by
    unfold run
    rw [setup_ok hm h1]
    show advances 1 _ = _
    unfold advances advances
    simp only [bind, Except.bind]
    cases advance ⟨h, w, sd, uniform h w 0, []⟩ <;> rfl
  rw [hrun]
  by_cases hs : h = 1 ∨ w = 1
  · have hf := advance_fault ⟨h, w, sd, uniform h w 0, []⟩ rfl rfl hm h1 w1 hs
    rw [hf]
    refine ⟨⟨fun _ => hs, fun _ => rfl⟩, ⟨?_, ?_⟩⟩
    · rintro ⟨s, e⟩
      cases e
    · intro h2
      omega
  · have h2 : 2 ≤ h ∧ 2 ≤ w := by omega
    have ho := advance_ok ⟨h, w, sd, uniform h w 0, []⟩ rfl rfl hm (rect_uniform h w 0)
      h2.1 h2.2
    rw [ho]
    refine ⟨⟨?_, fun e => absurd e hs⟩, ⟨fun _ => h2, fun _ => ⟨_, rfl⟩⟩⟩
    intro e
    cases e

/-- Witness of C16: the board of one row and three columns. -/
theorem first_advance_fault_iff_witness :
    (run [[0, 1, 0]] 1 = Except.error Fault.indexOutOfRange ↔ (1 = 1 ∨ 3 = 1)) ∧
    ((∃ s, run [[0, 1, 0]] 1 = Except.ok s) ↔ (2 ≤ 1 ∧ 2 ≤ 3)) :=
  first_advance_fault_iff 1 3 [[0, 1, 0]] (by decide) (by decide) (by decide)

/-- A cell that is not alive adds nothing to the count of `countAliveNeighbours`. -/
theorem countAliveNeighbours_skip (pre post : List State) (v : State) (hv : v ≠ alive) :
    countAliveNeighbours (pre ++ v :: post) = countAliveNeighbours (pre ++ post) := by
  simp [countAliveNeighbours_eq, ind, hv]

/-- C18: one advance establishes the two-valued cell invariant whatever integers the board
holds.  On a rectangular board with at least 2 rows and 2 columns the advance completes and
afterwards every cell is dead (0) or alive (1); a cell whose value was neither 0 nor 1 is
dead afterwards, and such a value among the arguments of `countAliveNeighbours` is not
counted. -/
theorem advance_two_valued (h w : Nat) (s : Sim)
    (hg : s.genLength = h) (hr : s.rowLength = w)
    (hb : Rect h w s.board) (hn : Rect h w s.next) (h2 : 2 ≤ h) (w2 : 2 ≤ w) :
    ∃ s1, advance s = Except.ok s1 ∧
      (∀ r ∈ s1.board, ∀ c ∈ r, c = 0 ∨ c = 1) ∧
      (∀ y x : Int, 0 ≤ y → y < h → 0 ≤ x → x < w →
        ∀ c, cellAt s.board y x = Except.ok c → c ≠ 0 → c ≠ 1 →
          cellAt s1.board y x = Except.ok dead) ∧
      (∀ (pre post : List State) (v : State), v ≠ 0 → v ≠ 1 →
        countAliveNeighbours (pre ++ v :: post) = countAliveNeighbours (pre ++ post)) := by
  refine ⟨_, advance_ok s hg hr hb hn h2 w2, ?_, ?_, ?_⟩
  · intro r hr1 c hc
    change r ∈ nextGen h w s.board at hr1
    simp only [nextGen, List.mem_map] at hr1
    obtain ⟨y, _, rfl⟩ := hr1
    obtain ⟨x, _, rfl⟩ := List.mem_map.mp hc
    exact rulesOfLife_two_valued _ _
  · intro y x hy0 hy hx0 hx c hc c0 c1
    show cellAt (nextGen h w s.board) y x = _
    rw [cellAt_ok hb y x hy0 hy hx0 hx] at hc
    have hc2 : bordered s.board y x = c := Except.ok.inj hc
    rw [cellAt_ok (rect_nextGen h w _) y x hy0 hy hx0 hx, bordered_nextGen,
      if_pos ⟨⟨hy0, hy⟩, hx0, hx⟩]
    have ha : ¬ c = alive := c1
    have hd : ¬ c = dead := c0
    unfold stepCell rulesOfLife
    rw [hc2, if_neg ha, if_neg hd]
    rfl
  · intro pre post v _ v1
    exact countAliveNeighbours_skip pre post v v1

/-- Witness of C18: a 2 by 2 board holding the values 5 and -3. -/
theorem advance_two_valued_witness :
    ∃ s1, advance ⟨2, 2, [[5, 1], [1, -3]], uniform 2 2 0, []⟩ = Except.ok s1 ∧
      (∀ r ∈ s1.board, ∀ c ∈ r, c = 0 ∨ c = 1) ∧
      (∀ y x : Int, 0 ≤ y → y < (2 : Nat) → 0 ≤ x → x < (2 : Nat) →
        ∀ c, cellAt [[5, 1], [1, -3]] y x = Except.ok c → c ≠ 0 → c ≠ 1 →
          cellAt s1.board y x = Except.ok dead) ∧
      (∀ (pre post : List State) (v : State), v ≠ 0 → v ≠ 1 →
        countAliveNeighbours (pre ++ v :: post) = countAliveNeighbours (pre ++ post)) :=
  advance_two_valued 2 2 ⟨2, 2, [[5, 1], [1, -3]], uniform 2 2 0, []⟩ rfl rfl
    (by decide) (by decide) (by decide) (by decide)

/-! ## Seeds that are not rectangular -/

/-- A read past the end of a row is a fault. -/
theorem cellAt_fault (m : Matrix) (y : Nat) (r : List State) (x : Int)
    (hr : m[y]? = some r) (hx : (r.length : Int) ≤ x) :
    cellAt m y x = Except.error Fault.indexOutOfRange := by
  unfold cellAt
  rw [index_ok m y r (by omega) (by simpa using hr)]
  show index r x = _
  unfold index
  have : r[x.toNat]? = none := List.getElem?_eq_none (by omega)
  rw [if_neg (by omega), this]

/-- A chain of reads one of which faults is a fault. -/
theorem bind_fault {α β : Type} (a : Except Fault α) (f : α → Except Fault β)
    (hf : ∀ v, f v = Except.error Fault.indexOutOfRange) :
    (a >>= f) = Except.error Fault.indexOutOfRange := by
  cases a with
  | error e => cases e; rfl
  | ok v => exact hf v

/-- The count of a cell faults when the read of the cell below it faults, unless the cell is
taken for one of the last row. -/
theorem neighbours_fault_below (g r : Int) (board : Matrix) (y x : Int)
    (hf : cellAt board (y + 1) x = Except.error Fault.indexOutOfRange)
    (hy : y = 0 ∨ y ≠ g - 1) :
    neighbours g r board y x = Except.error Fault.indexOutOfRange := by
  unfold neighbours
  split_ifs with a b c d e f
  all_goals first
    | (exfalso; omega)
    | (simp only [hf]
       repeat (first | rfl | (apply bind_fault; intro _)))

/-- The count of a cell below the first row faults when the read of the cell above it faults. -/
theorem neighbours_fault_above (g r : Int) (board : Matrix) (y x : Int)
    (hf : cellAt board (y - 1) x = Except.error Fault.indexOutOfRange)
    (hy : y ≠ 0) :
    neighbours g r board y x = Except.error Fault.indexOutOfRange := by
  unfold neighbours
  split_ifs with a b c d e f
  all_goals first
    | (exfalso; omega)
    | (simp only [hf]
       repeat (first | rfl | (apply bind_fault; intro _)))

/-- The inner loop of `main` faults when the count of one of the cells it visits faults. -/
theorem visitRow_fault (g r : Int) (board : Matrix) (y : Int) :
    ∀ (cs : List State) (x0 : Nat) (next : Matrix) (out : List String) (i : Nat),
      i < cs.length →
      neighbours g r board y ((x0 + i : Nat) : Int) = Except.error Fault.indexOutOfRange →
      visitRow g r board y cs x0 next out = Except.error Fault.indexOutOfRange := by
  intro cs
  induction cs with
  | nil => intro x0 next out i hi; simp at hi
  | cons c rest ih =>
    intro x0 next out i hi hf
    unfold visitRow
    cases i with
    | zero =>
      have hc : visitCell g r board y x0 c next out = Except.error Fault.indexOutOfRange := by
        unfold visitCell
        rw [show ((x0 + 0 : Nat) : Int) = (x0 : Int) by simp] at hf
        rw [hf]
        rfl
      rw [hc]
      rfl
    | succ j =>
      apply bind_fault
      intro v
      apply ih (x0 + 1) v.1 v.2 j (by simpa using hi)
      rw [show x0 + 1 + j = x0 + (j + 1) by omega]
      exact hf

/-- The outer loop of `main` faults when the count of one of the cells it visits faults. -/
theorem visitRows_fault (g r : Int) (board : Matrix) :
    ∀ (rs : List (List State)) (y0 : Nat) (next : Matrix) (out : List String) (j i : Nat)
      (row : List State), rs[j]? = some row → i < row.length →
      neighbours g r board ((y0 + j : Nat) : Int) (i : Int)
        = Except.error Fault.indexOutOfRange →
      visitRows g r board rs y0 next out = Except.error Fault.indexOutOfRange := by
  intro rs
  induction rs with
  | nil => intro y0 next out j i row hj; simp at hj
  | cons q rest ih =>
    intro y0 next out j i row hj hi hf
    unfold visitRows
    cases j with
    | zero =>
      simp at hj
      subst hj
      have hq := visitRow_fault g r board y0 q 0 next out i hi (by simpa using hf)
      rw [hq]
      rfl
    | succ k =>
      apply bind_fault
      intro v
      apply ih (y0 + 1) v.1 v.2 k i row (by simpa using hj) hi
      rw [show y0 + 1 + k = y0 + (k + 1) by omega]
      exact hf

/-- The iteration faults when the count of one cell of the board faults. -/
theorem advance_fault_of_cell (s : Sim) (j i : Nat) (row : List State)
    (hj : s.board[j]? = some row) (hi : i < row.length)
    (hf : neighbours s.genLength s.rowLength s.board (j : Int) (i : Int)
      = Except.error Fault.indexOutOfRange) :
    advance s = Except.error Fault.indexOutOfRange := by
  unfold advance
  rw [visitRows_fault s.genLength s.rowLength s.board s.board 0 s.next s.out j i row hj hi
    (by simpa using hf)]
  rfl

/-- Rows of differing lengths include two consecutive rows of differing lengths. -/
theorem adjacent_of_differing (m : Matrix)
    (hd : ∃ a ∈ m, ∃ b ∈ m, a.length ≠ b.length) :
    ∃ (y : Nat) (a b : List State), m[y]? = some a ∧ m[y + 1]? = some b ∧
      a.length ≠ b.length := by
  by_contra hno
  have hadj : ∀ (y : Nat) (a b : List State), m[y]? = some a → m[y + 1]? = some b →
      a.length = b.length := by
    intro y a b ha hb
    by_contra hne
    exact hno ⟨y, a, b, ha, hb, hne⟩
  have hall : ∀ (l : Matrix), (∀ (y : Nat) (a b : List State), l[y]? = some a →
      l[y + 1]? = some b → a.length = b.length) →
      ∀ a ∈ l, a.length = (l.headD []).length := by
    intro l
    induction l with
    | nil => intro _ a ha; cases ha
    | cons q t ih =>
      intro hl a ha
      rcases List.mem_cons.mp ha with rfl | hat
      · rfl
      · have ht := ih (fun y a b h1 h2 => hl (y + 1) a b (by simpa using h1) (by simpa using h2))
          a hat
        cases t with
        | nil => cases hat
        | cons p t2 =>
          have := hl 0 q p (by simp) (by simp)
          simp only [List.headD_cons] at ht ⊢
          omega
  obtain ⟨a, ha, b, hb, hne⟩ := hd
  exact hne (by rw [hall m hadj a ha, hall m hadj b hb])

/-- An iteration on a state whose board has rows of differing lengths faults. -/
theorem advance_fault_ragged (s : Sim) (hg : s.genLength = s.board.length)
    (hd : ∃ a ∈ s.board, ∃ b ∈ s.board, a.length ≠ b.length) :
    advance s = Except.error Fault.indexOutOfRange := by
  obtain ⟨y, a, b, ha, hb, hne⟩ := adjacent_of_differing s.board hd
  have hlt : y + 1 < s.board.length := (List.getElem?_eq_some_iff.mp hb).1
  by_cases hlen : b.length < a.length
  · apply advance_fault_of_cell s y b.length a ha hlen
    apply neighbours_fault_below
    · have := cellAt_fault s.board (y + 1) b (b.length : Int) hb (le_refl _)
      rw [show ((y : Int) + 1) = ((y + 1 : Nat) : Int) by simp]
      exact this
    · right
      rw [hg]
      omega
  · have hlen2 : a.length < b.length := by omega
    apply advance_fault_of_cell s (y + 1) a.length b hb hlen2
    apply neighbours_fault_above
    · have := cellAt_fault s.board y a (a.length : Int) ha (le_refl _)
      rw [show (((y + 1 : Nat) : Int) - 1) = (y : Int) by simp]
      exact this
    · omega

/-- C12 (as amended): a seed with zero rows, or with rows of differing lengths, is never
evolved: the start-up statements followed by the first advance end in the index fault, so no
next board is returned.  A seed made of rows of zero length is not rejected: every number of
advances completes, visits no cell and leaves the seed as it is. -/
theorem shape_violation_outcomes (sd : Matrix)
    (hv : sd = [] ∨ ∃ a ∈ sd, ∃ b ∈ sd, a.length ≠ b.length) :
    run sd 1 = Except.error Fault.indexOutOfRange ∧
    (∀ h k : Nat, ∃ s, run (uniform (h + 1) 0 dead) k = Except.ok s ∧
      s.board = uniform (h + 1) 0 dead) := by
  constructor
  · rcases hv with rfl | hd
    · rfl
    · cases hsd : sd with
      | nil =>
        rw [hsd] at hd
        obtain ⟨a, ha, _⟩ := hd
        cases ha
      | cons r0 t =>
        rw [← hsd]
        have hset : setup sd = Except.ok ⟨sd.length, r0.length, sd,
            List.replicate sd.length (List.replicate r0.length 0), []⟩ := by
          unfold setup
          rw [index_ok sd 0 r0 (le_refl 0) (by rw [hsd]; simp)]
          rfl
        unfold run
        rw [hset]
        show advances 1 _ = _
        unfold advances
        simp only [bind, Except.bind]
        rw [advance_fault_ragged _ rfl hd]
  · intro h k
    have hrect := rect_uniform (h + 1) 0 dead
    have hstep : ∀ (n : Nat) (s : Sim), Rect (h + 1) 0 s.board → Rect (h + 1) 0 s.next →
        advances n s = Except.ok s := by
      intro n
      induction n with
      | zero => intro s _ _; rfl
      | succ n ih =>
        intro s hb hn
        unfold advances
        simp only [bind, Except.bind]
        rw [advance_degenerate s hb hn (Or.inr rfl)]
        exact ih s hb hn
    refine ⟨⟨((h + 1 : Nat) : Int), ((0 : Nat) : Int), uniform (h + 1) 0 dead,
      uniform (h + 1) 0 0, []⟩, ?_, rfl⟩
    unfold run
    rw [setup_ok hrect (by omega)]
    exact hstep k _ hrect (rect_uniform (h + 1) 0 0)

/-- Witness of C12 (as amended): a seed whose second row is shorter than the first. -/
theorem shape_violation_outcomes_witness :
    run [[0, 1, 0], [0, 1]] 1 = Except.error Fault.indexOutOfRange ∧
    (∀ h k : Nat, ∃ s, run (uniform (h + 1) 0 dead) k = Except.ok s ∧
      s.board = uniform (h + 1) 0 dead) :=
  shape_violation_outcomes [[0, 1, 0], [0, 1]]
    (Or.inr ⟨[0, 1, 0], by decide, [0, 1], by decide, by decide⟩)

/-- C12 (counterexample): the seed of one row of zero length is not rejected; the start-up
statements and the first advance complete and return the seed as the board. -/
theorem empty_rows_not_rejected :
    (∀ r ∈ ([[]] : Matrix), r.length = 0) ∧
    run [[]] 1 = Except.ok ⟨1, 0, [[]], [[]], []⟩ ∧
    run [[]] 1 ≠ Except.error Fault.indexOutOfRange :=
  ⟨by decide, rfl, by intro h; cases h⟩

/-! ## Symmetries of the rectangle -/

/-- The full count as a sum of eight indicators. -/
theorem fullCount_sum (m : Matrix) (y x : Int) :
    fullCount m y x =
      ind (bordered m (y - 1) (x - 1)) + ind (bordered m (y - 1) x) +
      ind (bordered m (y - 1) (x + 1)) + ind (bordered m y (x - 1)) +
      ind (bordered m y (x + 1)) + ind (bordered m (y + 1) (x - 1)) +
      ind (bordered m (y + 1) x) + ind (bordered m (y + 1) (x + 1)) := by
  have key : ∀ (l : List (Int × Int)),
      ((l.filter (fun d => decide (bordered m (y + d.1) (x + d.2) = alive))).length : Int) =
        (l.map (fun d => ind (bordered m (y + d.1) (x + d.2)))).sum := by
    intro l
    induction l with
    | nil => simp
    | cons d t ih =>
      simp only [List.filter_cons, List.map_cons, List.sum_cons, ← ih]
      unfold ind
      split_ifs <;> simp_all
      all_goals omega
  unfold fullCount
  rw [key, offsets_eq]
  simp only [List.map, List.sum_cons, List.sum_nil, add_zero, ← sub_eq_add_neg]
  ring

/-- The left-right mirror keeps the shape. -/
theorem rect_mirrorRows {h w : Nat} {m : Matrix} (hm : Rect h w m) :
    Rect h w (mirrorRows m) := by
  refine ⟨by simp [mirrorRows, hm.1], ?_⟩
  intro r hr
  simp only [mirrorRows, List.mem_map] at hr
  obtain ⟨q, hq, rfl⟩ := hr
  simpa using hm.2 q hq

/-- The cells of the left-right mirror. -/
theorem bordered_mirrorRows {h w : Nat} {m : Matrix} (hm : Rect h w m) (y x : Int) :
    bordered (mirrorRows m) y x = bordered m y ((w : Int) - 1 - x) := by
  by_cases hi : (0 ≤ y ∧ y < h) ∧ (0 ≤ x ∧ x < w)
  · obtain ⟨⟨hy0, hy⟩, hx0, hx⟩ := hi
    obtain ⟨r, hr, hrl⟩ := rect_row hm (y := y.toNat) (by omega)
    have hx1 : x.toNat < r.length := by omega
    have hx2 : 0 ≤ (w : Int) - 1 - x := by omega
    have e : ((w : Int) - 1 - x).toNat = r.length - 1 - x.toNat := by omega
    simp [bordered, mirrorRows, hy0, hx0, hx2, hr, List.getElem?_reverse hx1, e]
  · rw [bordered_outside (rect_mirrorRows hm) y x hi,
      bordered_outside hm y _ (by omega)]

/-- The top-bottom mirror keeps the shape. -/
theorem rect_flipRows {h w : Nat} {m : Matrix} (hm : Rect h w m) :
    Rect h w (flipRows m) := by
  refine ⟨by simp [flipRows, hm.1], ?_⟩
  intro r hr
  simp only [flipRows, List.mem_reverse] at hr
  exact hm.2 r hr

/-- The cells of the top-bottom mirror. -/
theorem bordered_flipRows {h w : Nat} {m : Matrix} (hm : Rect h w m) (y x : Int) :
    bordered (flipRows m) y x = bordered m ((h : Int) - 1 - y) x := by
  by_cases hi : (0 ≤ y ∧ y < h) ∧ (0 ≤ x ∧ x < w)
  · obtain ⟨⟨hy0, hy⟩, hx0, hx⟩ := hi
    have hy1 : y.toNat < m.length := by have := hm.1; omega
    have hy2 : 0 ≤ (h : Int) - 1 - y := by omega
    have e : ((h : Int) - 1 - y).toNat = m.length - 1 - y.toNat := by have := hm.1; omega
    simp [bordered, flipRows, hy0, hx0, hy2, List.getElem?_reverse hy1, e]
  · rw [bordered_outside (rect_flipRows hm) y x hi,
      bordered_outside hm _ x (by omega)]

/-- The transpose of an `h` by `w` matrix is `w` by `h`. -/
theorem rect_transposeRows {h w : Nat} {m : Matrix} (hm : Rect h w m) (h1 : 1 ≤ h) :
    Rect w h (transposeRows m) := by
  obtain ⟨r, hr, hrl⟩ := rect_row hm (y := 0) (by omega)
  have hhead : (m.headD []).length = w := by
    cases m with
    | nil => simp at hr
    | cons a t =>
      simp at hr
      subst hr
      simpa using hrl
  refine ⟨by unfold transposeRows; rw [hhead]; simp, ?_⟩
  intro q hq
  simp only [transposeRows, List.mem_map] at hq
  obtain ⟨x, _, rfl⟩ := hq
  simp [hm.1]

/-- The cells of the transpose. -/
theorem bordered_transposeRows {h w : Nat} {m : Matrix} (hm : Rect h w m) (h1 : 1 ≤ h)
    (y x : Int) : bordered (transposeRows m) x y = bordered m y x := by
  by_cases hi : (0 ≤ y ∧ y < h) ∧ (0 ≤ x ∧ x < w)
  · obtain ⟨⟨hy0, hy⟩, hx0, hx⟩ := hi
    obtain ⟨r0, hr0, hrl0⟩ := rect_row hm (y := 0) (by omega)
    have hhead : (m.headD []).length = w := by
      cases m with
      | nil => simp at hr0
      | cons a t =>
        simp at hr0
        subst hr0
        simpa using hrl0
    obtain ⟨r, hr, hrl⟩ := rect_row hm (y := y.toNat) (by omega)
    have hx1 : x.toNat < w := by omega
    unfold transposeRows
    rw [hhead]
    simp [bordered, hy0, hx0, List.getElem?_map,
      List.getElem?_range hx1, hr, List.getD_eq_getElem?_getD]
  · rw [bordered_outside (rect_transposeRows hm h1) x y (by omega),
      bordered_outside hm y x hi]

/-- The rule at a cell of the left-right mirror is the rule at the mirrored cell. -/
theorem stepCell_mirrorRows {h w : Nat} {m : Matrix} (hm : Rect h w m) (y x : Int) :
    stepCell (mirrorRows m) h w y x = stepCell m h w y ((w : Int) - 1 - x) := by
  unfold stepCell
  rw [clippedCount_eq_fullCount (rect_mirrorRows hm), clippedCount_eq_fullCount hm,
    fullCount_sum, fullCount_sum]
  simp only [bordered_mirrorRows hm]
  rw [show (w : Int) - 1 - (x - 1) = (w : Int) - 1 - x + 1 by ring,
    show (w : Int) - 1 - (x + 1) = (w : Int) - 1 - x - 1 by ring]
  congr 2
  ring

/-- The rule at a cell of the top-bottom mirror is the rule at the mirrored cell. -/
theorem stepCell_flipRows {h w : Nat} {m : Matrix} (hm : Rect h w m) (y x : Int) :
    stepCell (flipRows m) h w y x = stepCell m h w ((h : Int) - 1 - y) x := by
  unfold stepCell
  rw [clippedCount_eq_fullCount (rect_flipRows hm), clippedCount_eq_fullCount hm,
    fullCount_sum, fullCount_sum]
  simp only [bordered_flipRows hm]
  rw [show (h : Int) - 1 - (y - 1) = (h : Int) - 1 - y + 1 by ring,
    show (h : Int) - 1 - (y + 1) = (h : Int) - 1 - y - 1 by ring]
  congr 2
  ring

/-- The rule at a cell of the transpose is the rule at the transposed cell. -/
theorem stepCell_transposeRows {h w : Nat} {m : Matrix} (hm : Rect h w m) (h1 : 1 ≤ h)
    (y x : Int) : stepCell (transposeRows m) w h x y = stepCell m h w y x := by
  unfold stepCell
  rw [clippedCount_eq_fullCount (rect_transposeRows hm h1), clippedCount_eq_fullCount hm,
    fullCount_sum, fullCount_sum]
  simp only [bordered_transposeRows hm h1]
  congr 2
  ring

/-- The simultaneous update commutes with the left-right mirror. -/
theorem nextGen_mirrorRows {h w : Nat} {m : Matrix} (hm : Rect h w m) :
    nextGen h w (mirrorRows m) = mirrorRows (nextGen h w m) := by
  apply rect_ext (rect_nextGen h w _) (rect_mirrorRows (rect_nextGen h w m))
  intro y x
  rw [bordered_mirrorRows (rect_nextGen h w m), bordered_nextGen, bordered_nextGen,
    stepCell_mirrorRows hm]
  by_cases hi : (0 ≤ y ∧ y < h) ∧ (0 ≤ x ∧ x < w)
  · rw [if_pos hi, if_pos (by omega)]
  · rw [if_neg hi, if_neg (by omega)]

/-- The simultaneous update commutes with the top-bottom mirror. -/
theorem nextGen_flipRows {h w : Nat} {m : Matrix} (hm : Rect h w m) :
    nextGen h w (flipRows m) = flipRows (nextGen h w m) := by
  apply rect_ext (rect_nextGen h w _) (rect_flipRows (rect_nextGen h w m))
  intro y x
  rw [bordered_flipRows (rect_nextGen h w m), bordered_nextGen, bordered_nextGen,
    stepCell_flipRows hm]
  by_cases hi : (0 ≤ y ∧ y < h) ∧ (0 ≤ x ∧ x < w)
  · rw [if_pos hi, if_pos (by omega)]
  · rw [if_neg hi, if_neg (by omega)]

/-- The simultaneous update commutes with the transpose. -/
theorem nextGen_transposeRows {h w : Nat} {m : Matrix} (hm : Rect h w m) (h1 : 1 ≤ h) :
    nextGen w h (transposeRows m) = transposeRows (nextGen h w m) := by
  apply rect_ext (rect_nextGen w h _) (rect_transposeRows (rect_nextGen h w m) h1)
  intro x y
  rw [bordered_transposeRows (rect_nextGen h w m) h1, bordered_nextGen, bordered_nextGen,
    stepCell_transposeRows hm h1]
  by_cases hi : (0 ≤ y ∧ y < h) ∧ (0 ≤ x ∧ x < w)
  · rw [if_pos hi, if_pos (by omega)]
  · rw [if_neg hi, if_neg (by omega)]

/-- C17: an advance commutes with the symmetries of the rectangle.  On a rectangular board
with at least 2 rows and 2 columns, the advance of the left-right mirrored board completes
with the left-right mirror of the advanced board, the advance of the top-bottom mirrored
board with its top-bottom mirror, and the advance of the transposed board (lengths
exchanged, scratch buffer transposed) with its transpose. -/
theorem advance_symmetric (h w : Nat) (s : Sim)
    (hg : s.genLength = h) (hr : s.rowLength = w)
    (hb : Rect h w s.board) (hn : Rect h w s.next) (h2 : 2 ≤ h) (w2 : 2 ≤ w) :
    ∃ s0 sm sf st, advance s = Except.ok s0 ∧
      advance { s with board := mirrorRows s.board } = Except.ok sm ∧
      sm.board = mirrorRows s0.board ∧
      advance { s with board := flipRows s.board } = Except.ok sf ∧
      sf.board = flipRows s0.board ∧
      advance { genLength := s.rowLength, rowLength := s.genLength,
                board := transposeRows s.board, next := transposeRows s.next,
                out := s.out } = Except.ok st ∧
      st.board = transposeRows s0.board := by
  refine ⟨_, _, _, _, advance_ok s hg hr hb hn h2 w2,
    advance_ok { s with board := mirrorRows s.board } hg hr (rect_mirrorRows hb) hn h2 w2,
    nextGen_mirrorRows hb,
    advance_ok { s with board := flipRows s.board } hg hr (rect_flipRows hb) hn h2 w2,
    nextGen_flipRows hb,
    advance_ok (h := w) (w := h) _ hr hg (rect_transposeRows hb (by omega))
      (rect_transposeRows hn (by omega)) w2 h2,
    nextGen_transposeRows hb (by omega)⟩

/-- Witness of C17: a 2 by 3 board. -/
theorem advance_symmetric_witness :
    ∃ s0 sm sf st, advance ⟨2, 3, [[1, 1, 0], [0, 1, 0]], uniform 2 3 0, []⟩ = Except.ok s0 ∧
      advance ⟨2, 3, mirrorRows [[1, 1, 0], [0, 1, 0]], uniform 2 3 0, []⟩ = Except.ok sm ∧
      sm.board = mirrorRows s0.board ∧
      advance ⟨2, 3, flipRows [[1, 1, 0], [0, 1, 0]], uniform 2 3 0, []⟩ = Except.ok sf ∧
      sf.board = flipRows s0.board ∧
      advance ⟨3, 2, transposeRows [[1, 1, 0], [0, 1, 0]], transposeRows (uniform 2 3 0), []⟩
        = Except.ok st ∧
      st.board = transposeRows s0.board :=
  advance_symmetric 2 3 ⟨2, 3, [[1, 1, 0], [0, 1, 0]], uniform 2 3 0, []⟩ rfl rfl
    (by decide) (by decide) (by decide) (by decide)

end LifeHappens
